import Mathlib

/-!
Verification of the ai-rag-service specification against a shallow embedding
of the service's Python sources.

Strings are modelled as `List Char` (via `String.data` for literals), machine
integers as `Nat`/`Int`, database tables as Lean lists of records, and external
collaborators (HTTP, embedding providers, the vector engine, HTML parsing) as
explicit oracle parameters.  Each definition is translated from the named
source function; section comments cite the file it embeds.
-/

/- ===== Python string primitives ===== -/

/-- ASCII whitespace, the character class stripped by Python `str.strip()`
and matched by `\s` (restricted to ASCII inputs). -/
def pyWhitespace (c : Char) : Bool :=
  c = ' ' || c = '\t' || c = '\n' || c = '\r' || c = '\x0b' || c = '\x0c'

/-- Python `str.lstrip()`. -/
def lstrip (s : List Char) : List Char := s.dropWhile pyWhitespace

/-- Python `str.rstrip()`. -/
def rstrip (s : List Char) : List Char := (s.reverse.dropWhile pyWhitespace).reverse

/-- Python `str.strip()`. -/
def pyStrip (s : List Char) : List Char := rstrip (lstrip s)

/-- Clamp one Python slice bound to an index of a string of length `len`:
negative indices count from the end, out-of-range indices are clamped. -/
def sliceBound (len : Nat) (i : Int) : Nat :=
  if i < 0 then ((len : Int) + i).toNat else min i.toNat len

/-- Python slice `s[a:b]` with full negative-index semantics. -/
def pySlice (s : List Char) (a b : Int) : List Char :=
  (s.take (sliceBound s.length b)).drop (sliceBound s.length a)

/-- Python slice `s[a:b]` for indices already known to be nonnegative. -/
def pySliceN (s : List Char) (a b : Nat) : List Char :=
  (s.take b).drop a

/-- Python `str.rfind(c)`: index of the last occurrence of `c`, `-1` if absent. -/
def pyRfind (s : List Char) (c : Char) : Int :=
  match s.reverse.findIdx? (· = c) with
  | some j => (s.length : Int) - 1 - j
  | none => -1

/-- Substring test (`pat in s` for Python strings). -/
def hasInfix (s pat : List Char) : Bool :=
  match s with
  | [] => pat.isEmpty
  | _ :: t => pat.isPrefixOf s || hasInfix t pat

/-- Python `str.zfill(n)` for the digit strings this service feeds it. -/
def zfill (n : Nat) (s : String) : String :=
  if n ≤ s.length then s else ⟨List.replicate (n - s.length) '0' ++ s.data⟩

/-- Python string truthiness for `Optional[str]` values: `None` and `""`
are falsy. -/
def pyTruthy (a : Option String) : Bool :=
  match a with
  | none => false
  | some s => !s.isEmpty

/-- Python `a or b` on an optional string with a string default. -/
def pyOrS (a : Option String) (b : String) : String :=
  match a with
  | none => b
  | some s => if s.isEmpty then b else s

/-- Python `a or b` where both operands are optional strings. -/
def pyOrOS (a b : Option String) : Option String :=
  if pyTruthy a then a else b

/- ===== EdgarClient._sanitize_accession (app/services/sec/edgar_client.py) ===== -/

/-- Full match of the compiled pattern `^[0-9-]{10,25}$`
(`EdgarClient._accession_pattern`). -/
def accessionPatternMatch (s : List Char) : Bool :=
  10 ≤ s.length && s.length ≤ 25 && s.all (fun c => c.isDigit || c = '-')

/-- `EdgarClient._sanitize_accession`: raises `ValueError` (modelled as
`Except.error`) on an empty or non-matching value, or one containing
`/`, `\` or `..`; otherwise returns the input unchanged. -/
def sanitizeAccession (s : List Char) : Except String (List Char) :=
  if s.isEmpty || !accessionPatternMatch s then
    .error "Invalid accession number format"
  else if hasInfix s ['/'] || hasInfix s ['\\'] || hasInfix s ['.', '.'] then
    .error "Invalid accession number format"
  else
    .ok s

@[simp] theorem exceptIsOk_error {ε α : Type} (e : ε) :
    (Except.error e : Except ε α).isOk = false := rfl

@[simp] theorem exceptIsOk_ok {ε α : Type} (a : α) :
    (Except.ok a : Except ε α).isOk = true := rfl

/- ===== DocumentProcessor (app/services/document_processor/processor.py) ===== -/

/-- Sentence-ending punctuation, the lookbehind class of
`re.split(r'(?<=[.!?])\s+', text)`. -/
def sentenceEnd (c : Char) : Bool := c = '.' || c = '!' || c = '?'

/-- Worker for `re.split(r'(?<=[.!?])\s+', text)`: a delimiter is a maximal
whitespace run whose first character directly follows `.`, `!` or `?`.
`skipping` is true while consuming the rest of a delimiter run, `prevEnd`
records whether the previous character was sentence-ending punctuation, and
`acc` is the current field accumulated in reverse. -/
def splitSentencesAux : List Char → Bool → Bool → List Char → List (List Char)
  | [], _, _, acc => [acc.reverse]
  | c :: rest, skipping, prevEnd, acc =>
    if skipping then
      if pyWhitespace c then splitSentencesAux rest true false acc
      else splitSentencesAux rest false (sentenceEnd c) (c :: acc)
    else if pyWhitespace c && prevEnd then
      acc.reverse :: splitSentencesAux rest true false []
    else
      splitSentencesAux rest false (sentenceEnd c) (c :: acc)

/-- `re.split(r'(?<=[.!?])\s+', text)` as used by
`DocumentProcessor._chunk_by_sentence`. -/
def splitSentences (t : List Char) : List (List Char) :=
  splitSentencesAux t false false []

/-- Python `" ".join(l)`. -/
def joinSp : List (List Char) → List Char
  | [] => []
  | [x] => x
  | x :: xs => x ++ ' ' :: joinSp xs

/-- The overlap-seeding loop of `_chunk_by_sentence`: walk the reversed
current chunk, pushing each sentence onto the front of the seed while the
seeded size stays within `overlap`, and stop at the first that does not fit.
Returns (`overlap_sentences`, `overlap_size`). -/
def takeOverlapLoop (overlap : Nat) : List (List Char) → List (List Char) → Nat →
    List (List Char) × Nat
  | [], acc, sz => (acc, sz)
  | s :: rest, acc, sz =>
    if sz + s.length ≤ overlap then takeOverlapLoop overlap rest (s :: acc) (sz + s.length)
    else (acc, sz)

/-- The sentence loop of `DocumentProcessor._chunk_by_sentence`: strip each
sentence, drop empty ones, flush the current chunk when the next sentence
would push the tracked size past `size` (re-seeding with trailing sentences
that fit in `overlap`), then append the sentence unconditionally. -/
def chunkSentencesLoop (size overlap : Nat) :
    List (List Char) → List (List Char) → Nat → List (List Char)
  | [], current, _ => if current.isEmpty then [] else [joinSp current]
  | sent :: rest, current, curSize =>
    if (pyStrip sent).isEmpty then chunkSentencesLoop size overlap rest current curSize
    else if size < curSize + (pyStrip sent).length ∧ ¬current.isEmpty then
      joinSp current ::
        chunkSentencesLoop size overlap rest
          ((takeOverlapLoop overlap current.reverse [] 0).1 ++ [pyStrip sent])
          ((takeOverlapLoop overlap current.reverse [] 0).2 + (pyStrip sent).length + 1)
    else
      chunkSentencesLoop size overlap rest (current ++ [pyStrip sent])
        (curSize + (pyStrip sent).length + 1)

/-- `DocumentProcessor._chunk_by_sentence` with configured `chunk_size` and
`chunk_overlap`. -/
def chunkBySentence (size overlap : Nat) (t : List Char) : List (List Char) :=
  chunkSentencesLoop size overlap (splitSentences t) [] 0

/-- One iteration body of `DocumentProcessor._chunk_fixed`: slice
`text[start:start+size]`, and when the window is not the final one and the
last space of the slice lies in its second half (`last_space > size * 0.5`,
exact for integers as `2 * last_space > size`), back off the cut to that
space.  Returns the chunk (before `strip`) and the new `end`. -/
def chunkFixedStep (t : List Char) (size : Int) (start : Int) : List Char × Int :=
  if start + size < (t.length : Int) then
    if 2 * pyRfind (pySlice t start (start + size)) ' ' > size then
      (pySlice (pySlice t start (start + size)) 0 (pyRfind (pySlice t start (start + size)) ' '),
       start + pyRfind (pySlice t start (start + size)) ' ')
    else (pySlice t start (start + size), start + size)
  else (pySlice t start (start + size), start + size)

/-- The `while start < len(text)` loop of `DocumentProcessor._chunk_fixed`,
with Python integer slice semantics (`start` may go negative when
`overlap > size`).  Each iteration emits `chunk.strip()` and advances
`start` to `end - overlap`.  `fuel` bounds the number of iterations;
`none` means the loop did not finish within `fuel` iterations. -/
def chunkFixedGo (t : List Char) (size overlap : Int) :
    Int → Nat → Option (List (List Char))
  | start, 0 => if start < (t.length : Int) then none else some []
  | start, fuel + 1 =>
    if start < (t.length : Int) then
      match chunkFixedGo t size overlap ((chunkFixedStep t size start).2 - overlap) fuel with
      | none => none
      | some rest => some (pyStrip (chunkFixedStep t size start).1 :: rest)
    else some []

/-- `DocumentProcessor._chunk_fixed` run from the start of the text with
enough fuel for every terminating configuration. -/
def chunkFixed (size overlap : Int) (t : List Char) : Option (List (List Char)) :=
  chunkFixedGo t size overlap 0 (t.length + 1)

/-- `DocumentProcessor._chunk_by_tokens`: treat `size`/`overlap` as token
counts and delegate to fixed chunking with both multiplied by 4 (the
explicit arguments are truthy whenever the configured values are nonzero,
so `size or self.chunk_size` resolves to them). -/
def chunkByTokens (size overlap : Int) (t : List Char) : Option (List (List Char)) :=
  chunkFixed (size * 4) (overlap * 4) t

/- ===== Length lemmas for the string primitives ===== -/

theorem length_rstrip_le (s : List Char) : (rstrip s).length ≤ s.length := by
  unfold rstrip
  simpa using (@List.dropWhile_sublist _ s.reverse pyWhitespace).length_le

theorem length_lstrip_le (s : List Char) : (lstrip s).length ≤ s.length :=
  (@List.dropWhile_sublist _ s pyWhitespace).length_le

theorem length_pyStrip_le (s : List Char) : (pyStrip s).length ≤ s.length :=
  le_trans (length_rstrip_le _) (length_lstrip_le _)

theorem length_pySlice_le (s : List Char) (a b : Int) (hab : a ≤ b) :
    ((pySlice s a b).length : Int) ≤ b - a := by
  unfold pySlice sliceBound
  simp only [List.length_drop, List.length_take]
  split_ifs <;> omega

theorem length_pySlice_le_self (s : List Char) (a b : Int) :
    (pySlice s a b).length ≤ s.length := by
  unfold pySlice sliceBound
  simp only [List.length_drop, List.length_take]
  split_ifs <;> omega

/- ===== Lemmas about the fixed-chunk loop ===== -/

/-- The chunk produced in one fixed-strategy iteration has at most `size`
characters (before stripping). -/
theorem chunkFixedStep_fst (t : List Char) (size start : Int) (hsz : 0 ≤ size) :
    ((chunkFixedStep t size start).1.length : Int) ≤ size := by
  have hwin : ((pySlice t start (start + size)).length : Int) ≤ size := by
    have := length_pySlice_le t start (start + size) (by omega)
    omega
  unfold chunkFixedStep
  by_cases hA : start + size < (t.length : Int)
  · by_cases hB : 2 * pyRfind (pySlice t start (start + size)) ' ' > size
    · simp only [if_pos hA, if_pos hB]
      have := length_pySlice_le_self (pySlice t start (start + size)) 0
        (pyRfind (pySlice t start (start + size)) ' ')
      omega
    · simp only [if_pos hA, if_neg hB]
      exact hwin
  · simp only [if_neg hA]
    exact hwin

/-- The `end` produced by one fixed-strategy iteration is either the full
window end or, after word-boundary back-off, beyond the window midpoint. -/
theorem chunkFixedStep_snd (t : List Char) (size start : Int) :
    start + size ≤ (chunkFixedStep t size start).2 ∨
      2 * ((chunkFixedStep t size start).2 - start) > size := by
  unfold chunkFixedStep
  by_cases hA : start + size < (t.length : Int)
  · by_cases hB : 2 * pyRfind (pySlice t start (start + size)) ' ' > size
    · simp only [if_pos hA, if_pos hB]
      right; omega
    · simp only [if_pos hA, if_neg hB]
      left; omega
  · simp only [if_neg hA]
    left; omega

/-- Every chunk a terminating run of the fixed-strategy loop produces has
length at most `size`, for any `start`, `overlap` and fuel. -/
theorem chunkFixedGo_bound (t : List Char) (size overlap : Int) (hsz : 0 ≤ size) :
    ∀ fuel start out, chunkFixedGo t size overlap start fuel = some out →
      ∀ c ∈ out, (c.length : Int) ≤ size := by
  intro fuel
  induction fuel with
  | zero =>
    intro start out h
    unfold chunkFixedGo at h
    split at h
    · exact absurd h (by simp)
    · simp only [Option.some_inj] at h
      subst h; intro c hc; simp at hc
  | succ n ih =>
    intro start out h
    unfold chunkFixedGo at h
    split at h
    · cases hrec : chunkFixedGo t size overlap ((chunkFixedStep t size start).2 - overlap) n with
      | none => rw [hrec] at h; exact absurd h (by simp)
      | some rest =>
        rw [hrec] at h
        simp only [Option.some_inj] at h
        subst h
        intro c hc
        rcases List.mem_cons.mp hc with hc | hc
        · subst hc
          have h1 := length_pyStrip_le (chunkFixedStep t size start).1
          have h2 := chunkFixedStep_fst t size start hsz
          omega
        · exact ih _ rest hrec c hc
    · simp only [Option.some_inj] at h
      subst h; intro c hc; simp at hc

/-- With `1 ≤ size` and `overlap ≤ size / 2` every iteration advances
`start`, so fuel `len(text) - start` suffices for the loop to finish. -/
theorem chunkFixedGo_terminates (t : List Char) (size overlap : Int)
    (h1 : 1 ≤ size) (h2 : 2 * overlap ≤ size) :
    ∀ (fuel : Nat) (start : Int), (t.length : Int) ≤ start + (fuel : Int) →
      (chunkFixedGo t size overlap start fuel).isSome = true := by
  intro fuel
  induction fuel with
  | zero =>
    intro start hle
    unfold chunkFixedGo
    rw [if_neg (by omega)]
    rfl
  | succ n ih =>
    intro start hle
    unfold chunkFixedGo
    split_ifs with hlt
    · have hadv : start + overlap + 1 ≤ (chunkFixedStep t size start).2 := by
        rcases chunkFixedStep_snd t size start with h | h <;> omega
      have := ih ((chunkFixedStep t size start).2 - overlap) (by omega)
      cases hrec : chunkFixedGo t size overlap ((chunkFixedStep t size start).2 - overlap) n with
      | none => rw [hrec] at this; simp at this
      | some rest => simp [hrec]
    · rfl

/-- With `size = 0` and `overlap = 0` the loop never advances `start`:
no amount of fuel finishes it on a nonempty text. -/
theorem chunkFixedGo_size_zero_stuck :
    ∀ fuel, chunkFixedGo "a".data 0 0 0 fuel = none := by
  intro fuel
  induction fuel with
  | zero => rfl
  | succ n ih =>
    unfold chunkFixedGo
    rw [if_pos (by norm_num)]
    have hstep : (chunkFixedStep "a".data 0 0).2 - 0 = 0 := by rfl
    rw [hstep, ih]

/- ===== Lemmas about the sentence-chunk loop ===== -/

/-- Total character count of a list of sentences. -/
def sumLen (l : List (List Char)) : Nat := (l.map List.length).sum

theorem joinSp_length (l : List (List Char)) (h : l ≠ []) :
    (joinSp l).length + 1 = sumLen l + l.length := by
  induction l with
  | nil => exact absurd rfl h
  | cons x xs ih =>
    cases xs with
    | nil => simp [joinSp, sumLen]
    | cons y ys =>
      have := ih (by simp)
      simp only [joinSp, List.length_append, List.length_cons, sumLen, List.map_cons,
        List.sum_cons] at *
      omega

theorem takeOverlapLoop_sum (overlap : Nat) :
    ∀ rev acc sz, (takeOverlapLoop overlap rev acc sz).2 + sumLen acc =
      sz + sumLen (takeOverlapLoop overlap rev acc sz).1 := by
  intro rev
  induction rev with
  | nil => intro acc sz; simp [takeOverlapLoop]
  | cons s rest ih =>
    intro acc sz
    unfold takeOverlapLoop
    split_ifs with h
    · have := ih (s :: acc) (sz + s.length)
      simp only [sumLen, List.map_cons, List.sum_cons] at *
      omega
    · simp

theorem takeOverlapLoop_le (overlap : Nat) :
    ∀ rev acc sz, sz ≤ overlap → (takeOverlapLoop overlap rev acc sz).2 ≤ overlap := by
  intro rev
  induction rev with
  | nil => intro acc sz h; simpa [takeOverlapLoop] using h
  | cons s rest ih =>
    intro acc sz h
    unfold takeOverlapLoop
    split_ifs with hf
    · exact ih (s :: acc) (sz + s.length) hf
    · simpa using h

theorem takeOverlapLoop_mem (overlap : Nat) :
    ∀ rev acc sz x, x ∈ (takeOverlapLoop overlap rev acc sz).1 → x ∈ rev ∨ x ∈ acc := by
  intro rev
  induction rev with
  | nil => intro acc sz x hx; right; simpa [takeOverlapLoop] using hx
  | cons s rest ih =>
    intro acc sz x hx
    unfold takeOverlapLoop at hx
    split_ifs at hx with hf
    · rcases ih (s :: acc) (sz + s.length) x hx with h | h
      · left; exact List.mem_cons_of_mem _ h
      · rcases List.mem_cons.mp h with h | h
        · left; exact h ▸ List.mem_cons_self _ _
        · right; exact h
    · right; simpa using hx

theorem length_le_sumLen (l : List (List Char)) (h : ∀ x ∈ l, x ≠ []) :
    l.length ≤ sumLen l := by
  induction l with
  | nil => simp [sumLen]
  | cons x xs ih =>
    have hx : x ≠ [] := h x (List.mem_cons_self _ _)
    have hlen : 1 ≤ x.length := by
      cases x with
      | nil => exact absurd rfl hx
      | cons a as => simp
    have := ih (fun y hy => h y (List.mem_cons_of_mem _ hy))
    simp only [sumLen, List.map_cons, List.sum_cons, List.length_cons] at *
    omega

/-- Loop invariant for `_chunk_by_sentence`: when every stripped sentence
fits in `size - overlap`, every emitted chunk has at most `size + overlap`
characters. -/
theorem chunkSentencesLoop_bound (size overlap : Nat) :
    ∀ (sents current : List (List Char)) (curSize : Nat),
      (∀ s ∈ sents, (pyStrip s).length + overlap ≤ size) →
      (∀ x ∈ current, x ≠ []) →
      sumLen current + current.length ≤ curSize + overlap →
      (current ≠ [] → curSize ≤ size + 1) →
      (current = [] → curSize = 0) →
      ∀ c ∈ chunkSentencesLoop size overlap sents current curSize,
        c.length ≤ size + overlap := by
  intro sents
  induction sents with
  | nil =>
    intro current curSize _ hne hw hsz _
    unfold chunkSentencesLoop
    split_ifs with h
    · intro c hc; simp at hc
    · intro c hc
      have h' : current ≠ [] := by
        intro hcontra
        rw [hcontra] at h
        simp at h
      have hc' : c = joinSp current := by simpa using hc
      subst hc'
      have hj := joinSp_length current h'
      have := hsz h'
      omega
  | cons sent rest ih =>
    intro current curSize hyp hne hw hsz hz
    have hs : (pyStrip sent).length + overlap ≤ size := hyp sent (List.mem_cons_self _ _)
    have hyprest : ∀ s ∈ rest, (pyStrip s).length + overlap ≤ size :=
      fun s hs' => hyp s (List.mem_cons_of_mem _ hs')
    unfold chunkSentencesLoop
    split_ifs with hemp hflush
    · exact ih current curSize hyprest hne hw hsz hz
    · intro c hc
      have hcur : current ≠ [] := by
        intro hcontra
        rw [hcontra] at hflush
        simp at hflush
      rcases List.mem_cons.mp hc with hc' | hc'
      · subst hc'
        have hj := joinSp_length current hcur
        have := hsz hcur
        omega
      · have hseedsum : (takeOverlapLoop overlap current.reverse [] 0).2 =
            sumLen (takeOverlapLoop overlap current.reverse [] 0).1 := by
          have := takeOverlapLoop_sum overlap current.reverse [] 0
          simpa [sumLen] using this
        have hseedle : (takeOverlapLoop overlap current.reverse [] 0).2 ≤ overlap :=
          takeOverlapLoop_le overlap current.reverse [] 0 (Nat.zero_le _)
        have hseedne : ∀ x ∈ (takeOverlapLoop overlap current.reverse [] 0).1, x ≠ [] := by
          intro x hx
          rcases takeOverlapLoop_mem overlap current.reverse [] 0 x hx with h | h
          · exact hne x (List.mem_reverse.mp h)
          · simp at h
        have hseedlen : (takeOverlapLoop overlap current.reverse [] 0).1.length ≤
            sumLen (takeOverlapLoop overlap current.reverse [] 0).1 :=
          length_le_sumLen _ hseedne
        refine ih _ _ hyprest ?_ ?_ ?_ ?_ c hc'
        · intro x hx
          rcases List.mem_append.mp hx with h | h
          · exact hseedne x h
          · have : x = pyStrip sent := by simpa using h
            subst this
            simpa [List.isEmpty_iff] using hemp
        · simp only [sumLen, List.map_append, List.sum_append, List.length_append,
            List.map_cons, List.sum_cons, List.map_nil, List.sum_nil, List.length_cons,
            List.length_nil]
          simp only [sumLen] at hseedsum hseedlen
          omega
        · intro _
          omega
        · intro hcontra
          simp at hcontra
    · intro c hc
      have hAorB : curSize + (pyStrip sent).length ≤ size ∨ current = [] := by
        by_cases hB : current.isEmpty
        · right; exact List.isEmpty_iff.mp hB
        · left
          by_contra hA
          push_neg at hA
          exact hflush ⟨hA, hB⟩
      refine ih _ _ hyprest ?_ ?_ ?_ ?_ c hc
      · intro x hx
        rcases List.mem_append.mp hx with h | h
        · exact hne x h
        · have : x = pyStrip sent := by simpa using h
          subst this
          simpa [List.isEmpty_iff] using hemp
      · simp only [sumLen, List.map_append, List.sum_append, List.length_append,
          List.map_cons, List.sum_cons, List.map_nil, List.sum_nil, List.length_cons,
          List.length_nil]
        simp only [sumLen] at hw
        omega
      · intro _
        rcases hAorB with h | h
        · omega
        · have := hz h
          omega
      · intro hcontra
        simp at hcontra

/- ===== Claim C2 ===== -/

/-- C2: `_sanitize_accession` raises exactly for inputs that are empty, or
not a full match of 10–25 characters drawn from digits and dashes, or that
contain `/`, `\` or `..`; on every other input it returns the input
unchanged.  It rejects `"../../etc/passwd"` and `"abc"` and accepts
`"0001193125-24-012345"`. -/
theorem sanitize_accession_raises_iff :
    (∀ s : List Char,
      ((sanitizeAccession s).isOk = false ↔
        (s = [] ∨ ¬ (10 ≤ s.length ∧ s.length ≤ 25 ∧ ∀ c ∈ s, c.isDigit = true ∨ c = '-')
          ∨ hasInfix s ['/'] = true ∨ hasInfix s ['\\'] = true
          ∨ hasInfix s ['.', '.'] = true))
      ∧ ((sanitizeAccession s).isOk = true → sanitizeAccession s = .ok s))
    ∧ (sanitizeAccession "../../etc/passwd".data).isOk = false
    ∧ (sanitizeAccession "abc".data).isOk = false
    ∧ sanitizeAccession "0001193125-24-012345".data = .ok "0001193125-24-012345".data := by
  refine ⟨fun s => ?_, by decide, by decide, by rfl⟩
  have apm_iff : accessionPatternMatch s = true ↔
      (10 ≤ s.length ∧ s.length ≤ 25 ∧ ∀ c ∈ s, c.isDigit = true ∨ c = '-') := by
    simp [accessionPatternMatch, List.all_eq_true, and_assoc]
  constructor
  · unfold sanitizeAccession
    split_ifs with h1 h2 <;>
      simp_all [List.isEmpty_iff, ← apm_iff] <;> tauto
  · unfold sanitizeAccession
    split_ifs <;> simp

/-- Witness for C2 at the concrete accepted input. -/
theorem sanitize_accession_raises_iff_witness :
    sanitizeAccession "0001193125-24-012345".data = .ok "0001193125-24-012345".data :=
  (sanitize_accession_raises_iff.1 "0001193125-24-012345".data).2 (by decide)

/- ===== Claim C3 ===== -/

/-- C3 (amended): every chunk returned by the fixed strategy has length at
most `size`; the sentence strategy only guarantees length at most
`size + overlap`, and only when every stripped sentence of the split
satisfies `length + overlap ≤ size`. -/
theorem chunk_size_bound :
    (∀ (t : List Char) (size overlap start : Int) (fuel : Nat) (out : List (List Char)),
      0 ≤ size → chunkFixedGo t size overlap start fuel = some out →
      ∀ c ∈ out, (c.length : Int) ≤ size)
    ∧ (∀ (t : List Char) (size overlap : Nat),
      (∀ s ∈ splitSentences t, (pyStrip s).length + overlap ≤ size) →
      ∀ c ∈ chunkBySentence size overlap t, c.length ≤ size + overlap) := by
  constructor
  · intro t size overlap start fuel out hsz h
    exact chunkFixedGo_bound t size overlap hsz fuel start out h
  · intro t size overlap hyp
    exact chunkSentencesLoop_bound size overlap (splitSentences t) [] 0 hyp
      (by intro x hx; simp at hx) (by simp [sumLen]) (by intro h; exact absurd rfl h)
      (fun _ => rfl)

/-- Witness for C3: the fixed strategy on `"hello world"` with `size = 4`,
and the sentence strategy on `"Hi. Yo."` with `size = 10, overlap = 2`. -/
theorem chunk_size_bound_witness :
    (∀ c ∈ ["hell", "o wo", "rld"].map String.data, (c.length : Int) ≤ 4)
    ∧ ∀ c ∈ chunkBySentence 10 2 "Hi. Yo.".data, c.length ≤ 10 + 2 :=
  ⟨fun c hc => chunk_size_bound.1 "hello world".data 4 0 0 12 _ (by decide) (by rfl) c hc,
   chunk_size_bound.2 "Hi. Yo.".data 10 2 (by decide)⟩

/-- Counterexample for C3 as stated: with `size = 5, overlap = 2` the
sentence strategy returns the single 10-character sentence whole, exceeding
`size`. -/
theorem chunk_size_bound_counterexample :
    chunkBySentence 5 2 "aaaaaaaaaa".data = ["aaaaaaaaaa".data]
    ∧ ¬ ("aaaaaaaaaa".data.length ≤ 5) := by
  constructor
  · rfl
  · decide

/- ===== Claim C10 ===== -/

/-- C10 (amended): the `_chunk_fixed` loop (also reached by the token
strategy) terminates for every text whenever `1 ≤ size` and
`overlap ≤ size / 2`: each iteration advances the window start, so
`len(text) + 1` iterations always suffice. -/
theorem chunk_fixed_terminates (t : List Char) (size overlap : Int)
    (h1 : 1 ≤ size) (h2 : 2 * overlap ≤ size) :
    (chunkFixed size overlap t).isSome = true := by
  unfold chunkFixed
  exact chunkFixedGo_terminates t size overlap h1 h2 (t.length + 1) 0 (by push_cast; omega)

/-- Witness for C10 at `size = 4, overlap = 2` on `"hello world"`. -/
theorem chunk_fixed_terminates_witness :
    (chunkFixed 4 2 "hello world".data).isSome = true :=
  chunk_fixed_terminates "hello world".data 4 2 (by decide) (by decide)

/-- Counterexample for C10 as stated: `size = 0, overlap = 0` satisfies
`overlap ≤ size / 2`, yet the loop never finishes on the one-character
text `"a"`, whatever the iteration budget. -/
theorem chunk_fixed_terminates_counterexample :
    2 * (0 : Int) ≤ 0 ∧ ¬ ∃ fuel, (chunkFixedGo "a".data 0 0 0 fuel).isSome = true := by
  refine ⟨le_refl _, ?_⟩
  rintro ⟨fuel, hf⟩
  rw [chunkFixedGo_size_zero_stuck fuel] at hf
  simp at hf

/- ===== Vector stores (app/services/vector_store/) ===== -/

/-- One row of the `document_chunks` table as read by `PgVectorStore.search`
(pgvector_store.py); the indexed metadata columns back the filter. -/
structure ChunkRow where
  id : String
  content : String
  document_id : String
  source_type : Option String
  form_type : Option String
  cik : Option String
  accession_number : Option String
  filed_date : Option Nat
deriving DecidableEq

/-- The exact-match/date-range filter dictionary accepted by
`PgVectorStore.search`; absent keys are `none`. -/
structure PgFilter where
  document_id : Option String
  source_type : Option String
  form_type : Option String
  cik : Option String
  accession_number : Option String
  filed_date_from : Option Nat
  filed_date_to : Option Nat
deriving DecidableEq

/-- The conjunction of `query.filter(...)` clauses built by
`PgVectorStore.search`; a SQL comparison against a NULL column excludes
the row. -/
def matchesFilter (f : PgFilter) (r : ChunkRow) : Bool :=
  (match f.document_id with | none => true | some v => r.document_id = v)
  && (match f.source_type with | none => true | some v => r.source_type = some v)
  && (match f.form_type with | none => true | some v => r.form_type = some v)
  && (match f.cik with | none => true | some v => r.cik = some v)
  && (match f.accession_number with | none => true | some v => r.accession_number = some v)
  && (match f.filed_date_from with
      | none => true
      | some v => match r.filed_date with | none => false | some d => v ≤ d)
  && (match f.filed_date_to with
      | none => true
      | some v => match r.filed_date with | none => false | some d => d ≤ v)

/-- A search hit: document plus relevance score (vector_store/base.py). -/
structure SearchResult where
  id : String
  content : String
  score : ℚ
deriving DecidableEq

/-- `PgVectorStore.search`: each table row carries the cosine distance the
database computed for the query embedding (an oracle input here); the rows
are filtered, ordered by ascending distance, limited to `top_k`, and scored
as `1 - distance`. -/
def pgSearch (rows : List (ChunkRow × ℚ)) (filter : Option PgFilter) (top_k : Nat) :
    List SearchResult :=
  let filtered :=
    match filter with
    | none => rows
    | some f => rows.filter (fun rd => matchesFilter f rd.1)
  let ordered := filtered.mergeSort (fun a b => decide (a.2 ≤ b.2))
  (ordered.take top_k).map (fun rd => ⟨rd.1.id, rd.1.content, 1 - rd.2⟩)

/-- `ChromaVectorStore.search`: the engine returns ids, documents and L2
distances already ranked (nearest first); each hit is scored as
`1 / (1 + distance)`. -/
def chromaSearch (results : List (String × String × ℚ)) : List SearchResult :=
  results.map (fun r => ⟨r.1, r.2.1, 1 / (1 + r.2.2)⟩)

/- ===== Claim C5 ===== -/

/-- C5: both backends return results sorted by non-increasing score: the
pgvector search orders by ascending distance itself and `1 - distance`
reverses that order; given the Chroma engine yields non-decreasing
(nonnegative L2) distances, `1 / (1 + distance)` reverses the order too. -/
theorem search_sorted_by_score :
    (∀ (rows : List (ChunkRow × ℚ)) (filter : Option PgFilter) (top_k : Nat),
      (pgSearch rows filter top_k).Pairwise (fun a b => b.score ≤ a.score))
    ∧ (∀ results : List (String × String × ℚ),
      results.Pairwise (fun a b => a.2.2 ≤ b.2.2) →
      (∀ r ∈ results, 0 ≤ r.2.2) →
      (chromaSearch results).Pairwise (fun a b => b.score ≤ a.score)) := by
  constructor
  · intro rows filter top_k
    unfold pgSearch
    rw [List.pairwise_map]
    refine List.Pairwise.sublist (List.take_sublist _ _) ?_
    have hsorted := @List.sorted_mergeSort _
      (fun (a b : ChunkRow × ℚ) => decide (a.2 ≤ b.2))
      (fun a b c hab hbc => by
        simp only [decide_eq_true_eq] at *
        exact le_trans hab hbc)
      (fun a b => by
        simp only [Bool.or_eq_true, decide_eq_true_eq]
        exact le_total a.2 b.2)
      (match filter with
       | none => rows
       | some f => rows.filter (fun rd => matchesFilter f rd.1))
    refine hsorted.imp ?_
    intro a b hab
    simp only [decide_eq_true_eq] at hab
    dsimp only
    linarith
  · intro results hsorted hnn
    unfold chromaSearch
    rw [List.pairwise_map]
    refine hsorted.imp_of_mem ?_
    intro r s hr hs hle
    have h1 : (0:ℚ) < 1 + r.2.2 := by have := hnn r hr; linarith
    exact one_div_le_one_div_of_le h1 (by linarith)

/-- Witness for C5 on a concrete ranked result list. -/
theorem search_sorted_by_score_witness :
    (chromaSearch [("a", "x", 0), ("b", "y", 1), ("c", "z", 3)]).Pairwise
      (fun a b => b.score ≤ a.score) :=
  search_sorted_by_score.2 [("a", "x", 0), ("b", "y", 1), ("c", "z", 3)]
    (by decide) (by decide)

/- ===== Embedding / LLM routers (embedding_router.py, llm_router.py) ===== -/

/-- The concrete embedding classes the router can construct. -/
inductive EmbKind where
  | openai
  | localModel
deriving DecidableEq

/-- One constructed embedding-model instance; `allocId` is a distinct
allocation tag so that a freshly constructed object can be told apart from
any previously existing one. -/
structure EmbInstance where
  allocId : Nat
  kind : EmbKind
  modelName : String
  apiKey : Option String
deriving DecidableEq

/-- The module-level state of embedding_router.py: the `_embedding_model`
singleton plus the next allocation tag. -/
structure EmbState where
  cached : Option EmbInstance
  nextAlloc : Nat
deriving DecidableEq

/-- The process configuration read by embedding_router.py. -/
structure EmbConfig where
  embeddingProviderCfg : String
  openaiApiKeyCfg : Option String
  localEmbeddingModelCfg : String
deriving DecidableEq

/-- `get_embedding_model(provider, model_name, api_key)`.  Returns the
instance handed to the caller and the module state after the call;
a raised `ConfigurationError` is `Except.error` and leaves the module
state unchanged. -/
def getEmbeddingModel (cfg : EmbConfig) (provider modelName apiKey : Option String)
    (st : EmbState) : Except String (EmbInstance × EmbState) :=
  if pyOrS provider cfg.embeddingProviderCfg = "openai" then
    if !pyTruthy (pyOrOS apiKey cfg.openaiApiKeyCfg) then
      .error "OPENAI_API_KEY not found in environment variables"
    else if !pyTruthy apiKey then
      match st.cached with
      | some c =>
        if c.kind = .openai ∧ c.modelName = pyOrS modelName "text-embedding-3-small" then
          .ok (c, st)
        else
          .ok (⟨st.nextAlloc, .openai, pyOrS modelName "text-embedding-3-small",
                pyOrOS apiKey cfg.openaiApiKeyCfg⟩,
               ⟨some ⟨st.nextAlloc, .openai, pyOrS modelName "text-embedding-3-small",
                pyOrOS apiKey cfg.openaiApiKeyCfg⟩, st.nextAlloc + 1⟩)
      | none =>
        .ok (⟨st.nextAlloc, .openai, pyOrS modelName "text-embedding-3-small",
              pyOrOS apiKey cfg.openaiApiKeyCfg⟩,
             ⟨some ⟨st.nextAlloc, .openai, pyOrS modelName "text-embedding-3-small",
              pyOrOS apiKey cfg.openaiApiKeyCfg⟩, st.nextAlloc + 1⟩)
    else
      .ok (⟨st.nextAlloc, .openai, pyOrS modelName "text-embedding-3-small",
            pyOrOS apiKey cfg.openaiApiKeyCfg⟩,
           ⟨st.cached, st.nextAlloc + 1⟩)
  else if pyOrS provider cfg.embeddingProviderCfg = "local" then
    match st.cached with
    | some c =>
      if c.kind = .localModel ∧ c.modelName = pyOrS modelName cfg.localEmbeddingModelCfg then
        .ok (c, st)
      else
        .ok (⟨st.nextAlloc, .localModel, pyOrS modelName cfg.localEmbeddingModelCfg, none⟩,
             ⟨some ⟨st.nextAlloc, .localModel, pyOrS modelName cfg.localEmbeddingModelCfg,
              none⟩, st.nextAlloc + 1⟩)
    | none =>
      .ok (⟨st.nextAlloc, .localModel, pyOrS modelName cfg.localEmbeddingModelCfg, none⟩,
           ⟨some ⟨st.nextAlloc, .localModel, pyOrS modelName cfg.localEmbeddingModelCfg,
            none⟩, st.nextAlloc + 1⟩)
  else
    .error "Unsupported embedding provider"

/-- One constructed LLM client; `providerName` is the `provider_name`
attribute checked by the router's cache test. -/
structure LlmInstance where
  allocId : Nat
  providerName : String
  apiKey : String
deriving DecidableEq

/-- The module-level state of llm_router.py: the `_llm_client` singleton
plus the next allocation tag. -/
structure LlmState where
  cached : Option LlmInstance
  nextAlloc : Nat
deriving DecidableEq

/-- The process configuration read by llm_router.py. -/
structure LlmConfig where
  llmProviderCfg : String
  openaiApiKeyCfg : Option String
  anthropicApiKeyCfg : Option String
deriving DecidableEq

/-- The client-construction tail of `get_llm_client`, reached when the
cached singleton was not returned. -/
def getLlmClientNew (cfg : LlmConfig) (provider apiKey : Option String)
    (st : LlmState) : Except String (LlmInstance × LlmState) :=
  if pyOrS provider cfg.llmProviderCfg = "openai" then
    if !pyTruthy (pyOrOS apiKey cfg.openaiApiKeyCfg) then
      .error "OPENAI_API_KEY not found in environment variables"
    else if pyTruthy apiKey then
      .ok (⟨st.nextAlloc, "openai", (pyOrOS apiKey cfg.openaiApiKeyCfg).getD ""⟩,
           ⟨st.cached, st.nextAlloc + 1⟩)
    else
      .ok (⟨st.nextAlloc, "openai", (pyOrOS apiKey cfg.openaiApiKeyCfg).getD ""⟩,
           ⟨some ⟨st.nextAlloc, "openai", (pyOrOS apiKey cfg.openaiApiKeyCfg).getD ""⟩,
            st.nextAlloc + 1⟩)
  else if pyOrS provider cfg.llmProviderCfg = "anthropic" then
    if !pyTruthy (pyOrOS apiKey cfg.anthropicApiKeyCfg) then
      .error "ANTHROPIC_API_KEY not found in environment variables"
    else if pyTruthy apiKey then
      .ok (⟨st.nextAlloc, "anthropic", (pyOrOS apiKey cfg.anthropicApiKeyCfg).getD ""⟩,
           ⟨st.cached, st.nextAlloc + 1⟩)
    else
      .ok (⟨st.nextAlloc, "anthropic", (pyOrOS apiKey cfg.anthropicApiKeyCfg).getD ""⟩,
           ⟨some ⟨st.nextAlloc, "anthropic", (pyOrOS apiKey cfg.anthropicApiKeyCfg).getD ""⟩,
            st.nextAlloc + 1⟩)
  else
    .error "Unsupported LLM provider"

/-- `get_llm_client(provider, api_key)`: return the cached client when the
provider matches and no per-call key was given; otherwise construct one,
caching it only when no per-call key was given. -/
def getLlmClient (cfg : LlmConfig) (provider apiKey : Option String)
    (st : LlmState) : Except String (LlmInstance × LlmState) :=
  match st.cached with
  | some c =>
    if !pyTruthy apiKey && (c.providerName == pyOrS provider cfg.llmProviderCfg) then
      .ok (c, st)
    else getLlmClientNew cfg provider apiKey st
  | none => getLlmClientNew cfg provider apiKey st

/-- Well-formedness of the router states: any cached instance was allocated
before the next allocation tag. -/
def EmbWF (st : EmbState) : Prop :=
  ∀ c, st.cached = some c → c.allocId < st.nextAlloc

/-- Well-formedness of the LLM router state. -/
def LlmWF (st : LlmState) : Prop :=
  ∀ c, st.cached = some c → c.allocId < st.nextAlloc

/- ===== Claim C6 ===== -/

/-- C6 (amended): a call passing a non-empty per-call `api_key` leaves the
module-level singleton unchanged and returns a freshly constructed
instance, never the cached one — for `get_llm_client` always, and for
`get_embedding_model` whenever the resolved provider is `"openai"`.
(The `"local"` embedding provider ignores `api_key` and may still install
or return the singleton, and an empty-string key is treated as absent.) -/
theorem per_call_credentials_uncached :
    (∀ (cfg : EmbConfig) (provider modelName apiKey : Option String) (st : EmbState),
      EmbWF st → pyTruthy apiKey = true →
      pyOrS provider cfg.embeddingProviderCfg = "openai" →
      ∀ inst st', getEmbeddingModel cfg provider modelName apiKey st = .ok (inst, st') →
        st'.cached = st.cached ∧ inst.allocId = st.nextAlloc ∧
          ∀ c, st.cached = some c → inst ≠ c)
    ∧ (∀ (cfg : LlmConfig) (provider apiKey : Option String) (st : LlmState),
      LlmWF st → pyTruthy apiKey = true →
      ∀ inst st', getLlmClient cfg provider apiKey st = .ok (inst, st') →
        st'.cached = st.cached ∧ inst.allocId = st.nextAlloc ∧
          ∀ c, st.cached = some c → inst ≠ c) := by
  constructor
  · intro cfg provider modelName apiKey st hwf htruthy hprov inst st' h
    unfold getEmbeddingModel at h
    rw [if_pos hprov] at h
    rw [if_neg (by simp [pyOrOS, htruthy])] at h
    rw [if_neg (by simp [htruthy])] at h
    simp only [Except.ok.injEq, Prod.mk.injEq] at h
    obtain ⟨hinst, hst⟩ := h
    subst hinst
    subst hst
    refine ⟨rfl, rfl, ?_⟩
    intro c hc hcontra
    have := hwf c hc
    rw [← hcontra] at this
    simp at this
  · intro cfg provider apiKey st hwf htruthy inst st' h
    unfold getLlmClient at h
    have hnew : getLlmClientNew cfg provider apiKey st = .ok (inst, st') →
        st'.cached = st.cached ∧ inst.allocId = st.nextAlloc ∧
          ∀ c, st.cached = some c → inst ≠ c := by
      intro hn
      unfold getLlmClientNew at hn
      have hfresh : ∀ (name : String) (key : String),
          (Except.ok (⟨st.nextAlloc, name, key⟩, ⟨st.cached, st.nextAlloc + 1⟩) :
            Except String (LlmInstance × LlmState)) = .ok (inst, st') →
          st'.cached = st.cached ∧ inst.allocId = st.nextAlloc ∧
            ∀ c, st.cached = some c → inst ≠ c := by
        intro name key hok
        simp only [Except.ok.injEq, Prod.mk.injEq] at hok
        obtain ⟨hinst, hst⟩ := hok
        subst hinst
        subst hst
        refine ⟨rfl, rfl, ?_⟩
        intro c hc hcontra
        have := hwf c hc
        rw [← hcontra] at this
        simp at this
      split_ifs at hn
      all_goals exact hfresh _ _ hn
    cases hcached : st.cached with
    | none =>
      rw [hcached] at h
      have := hnew h
      rw [hcached] at this
      exact this
    | some c =>
      rw [hcached] at h
      rw [htruthy] at h
      simp only [Bool.not_true, Bool.false_and, if_false] at h
      have := hnew h
      rw [hcached] at this
      exact this

/-- Witness for C6: a per-call key with provider `"openai"` against an
empty singleton state on both routers. -/
theorem per_call_credentials_uncached_witness :
    ((⟨none, 1⟩ : EmbState).cached = (⟨none, 0⟩ : EmbState).cached
      ∧ (⟨0, .openai, "text-embedding-3-small", some "sk-test"⟩ : EmbInstance).allocId = 0
      ∧ ∀ c, (⟨none, 0⟩ : EmbState).cached = some c →
          (⟨0, .openai, "text-embedding-3-small", some "sk-test"⟩ : EmbInstance) ≠ c) :=
  per_call_credentials_uncached.1 ⟨"openai", none, "m"⟩ none none (some "sk-test")
    ⟨none, 0⟩ (by intro c hc; simp at hc) (by decide) (by decide)
    ⟨0, .openai, "text-embedding-3-small", some "sk-test"⟩ ⟨none, 1⟩ (by rfl)

/-- Counterexample for C6 as stated: a call to `get_embedding_model` with
the non-null per-call key `"sk-test"` but provider `"local"` constructs a
`LocalEmbeddings` instance and installs it in the module-level singleton,
changing `_embedding_model` from `None` to that instance. -/
theorem per_call_credentials_uncached_counterexample :
    pyTruthy (some "sk-test") = true
    ∧ getEmbeddingModel ⟨"openai", none, "all-MiniLM-L6-v2"⟩ (some "local") none
        (some "sk-test") ⟨none, 0⟩ =
      .ok (⟨0, .localModel, "all-MiniLM-L6-v2", none⟩,
           ⟨some ⟨0, .localModel, "all-MiniLM-L6-v2", none⟩, 1⟩)
    ∧ (⟨some ⟨0, .localModel, "all-MiniLM-L6-v2", none⟩, 1⟩ : EmbState).cached ≠
        (⟨none, 0⟩ : EmbState).cached := by
  refine ⟨by decide, by rfl, by decide⟩

/- ===== SECIngestionJobRepository (app/database/repositories.py) ===== -/

/-- One `sec_ingestion_jobs` row (app/database/models.py); timestamps are
abstract clock ticks. -/
structure Job where
  jobId : Nat
  cik : String
  accession_number : String
  form_type : String
  filed_date : Option Nat
  company_name : Option String
  filing_url : Option String
  status : String
  error_message : Option String
  attempts : Nat
  created_at : Nat
  started_at : Option Nat
  finished_at : Option Nat
deriving DecidableEq

/-- The jobs table. -/
structure JobDB where
  jobs : List Job
deriving DecidableEq

/-- Primary-key invariant of the jobs table. -/
def UniqueJobIds (db : JobDB) : Prop :=
  db.jobs.Pairwise (fun a b => a.jobId ≠ b.jobId)

/-- The row update applied by `claim_next_pending` to the job it selects. -/
def claimUpdate (j : Job) (now : Nat) : Job :=
  { j with status := "running", attempts := j.attempts + 1, started_at := some now }

/-- Replace the row with the given primary key (SQLAlchemy flushes the
mutated object back by primary key on commit). -/
def updateJob (db : JobDB) (j : Job) : JobDB :=
  ⟨db.jobs.map (fun k => if k.jobId = j.jobId then j else k)⟩

/-- `SECIngestionJobRepository.claim_next_pending`: select the first
`pending` job in `created_at` order, flip it to `running`, increment
`attempts`, stamp `started_at`; return `none` (and leave every row
unchanged) when no pending job exists. -/
def claim_next_pending (db : JobDB) (now : Nat) : Option Job × JobDB :=
  match ((db.jobs.filter (fun j => j.status = "pending")).mergeSort
      (fun a b => decide (a.created_at ≤ b.created_at))).head? with
  | none => (none, db)
  | some j => (some (claimUpdate j now), updateJob db (claimUpdate j now))

/-- `SECIngestionJobRepository.mark_completed`. -/
def mark_completed (db : JobDB) (job : Job) (now : Nat) : Job × JobDB :=
  let j := { job with status := "completed", finished_at := some now }
  (j, updateJob db j)

/-- `SECIngestionJobRepository.mark_failed`. -/
def mark_failed (db : JobDB) (job : Job) (errorMessage : String) (now : Nat) :
    Job × JobDB :=
  let j := { job with
             status := "failed"
             error_message := some errorMessage
             finished_at := some now }
  (j, updateJob db j)

/- ===== SECFilingQueueProcessor.process_next (app/services/sec/queue.py) ===== -/

/-- `SECFilingQueueProcessor.process_next`: claim the next pending job; if
none, return `False`.  Otherwise run `ingest_filing` (an oracle here: it
touches filings, companies, documents and the vector store but no
`sec_ingestion_jobs` row) and mark the job completed, or — when ingestion
raises — catch the exception, mark the job failed with the exception
message, and still return `True`.  The model is a total function: no
ingestion exception escapes. -/
def process_next (ingest : Job → Except String Unit) (db : JobDB)
    (now now2 : Nat) : Bool × JobDB :=
  match claim_next_pending db now with
  | (none, db') => (false, db')
  | (some job, db') =>
    match ingest job with
    | .ok _ => (true, (mark_completed db' job now2).2)
    | .error msg => (true, (mark_failed db' job msg now2).2)

/-- The comparison `claim_next_pending` orders by (`created_at` ascending). -/
theorem jobLe_trans : ∀ a b c : Job,
    decide (a.created_at ≤ b.created_at) = true →
    decide (b.created_at ≤ c.created_at) = true →
    decide (a.created_at ≤ c.created_at) = true := by
  intro a b c hab hbc
  simp only [decide_eq_true_eq] at *
  omega

/-- The job selected by `claim_next_pending` is a pending row with minimal
`created_at`. -/
theorem claim_head_spec (db : JobDB) (j0 : Job)
    (h : ((db.jobs.filter (fun j => j.status = "pending")).mergeSort
      (fun a b => decide (a.created_at ≤ b.created_at))).head? = some j0) :
    j0 ∈ db.jobs ∧ j0.status = "pending" ∧
      ∀ k ∈ db.jobs, k.status = "pending" → j0.created_at ≤ k.created_at := by
  set fil := db.jobs.filter (fun j => j.status = "pending") with hfil
  set sorted := fil.mergeSort (fun a b => decide (a.created_at ≤ b.created_at)) with hsorted
  have hmem : ∀ x, x ∈ sorted ↔ x ∈ fil := fun x => List.mem_mergeSort
  have hpair : sorted.Pairwise (fun a b => decide (a.created_at ≤ b.created_at) = true) :=
    List.sorted_mergeSort jobLe_trans
      (fun a b => by simp only [Bool.or_eq_true, decide_eq_true_eq]; omega) fil
  cases hs : sorted with
  | nil => rw [hs] at h; simp at h
  | cons a tail =>
    rw [hs] at h
    simp only [List.head?_cons, Option.some_inj] at h
    have ha : j0 = a := h.symm
    subst ha
    have hj0fil : j0 ∈ fil := (hmem j0).mp (hs ▸ List.mem_cons_self _ _)
    have hj0jobs := List.mem_filter.mp hj0fil
    refine ⟨hj0jobs.1, by simpa using hj0jobs.2, ?_⟩
    intro k hk hkp
    have hkfil : k ∈ fil := List.mem_filter.mpr ⟨hk, by simpa using hkp⟩
    have hksorted : k ∈ sorted := (hmem k).mpr hkfil
    rw [hs] at hksorted
    rcases List.mem_cons.mp hksorted with hkc | hkc
    · subst hkc; omega
    · rw [hs] at hpair
      have := (List.pairwise_cons.mp hpair).1 k hkc
      simpa using this

/-- C4: `claim_next_pending` returns nothing and changes no row when no
pending job exists; otherwise it picks a pending job with the oldest
`created_at`, flips it to `running`, increments `attempts`, stamps
`started_at` and returns it — and after claiming the only pending job an
immediately following call returns nothing. -/
theorem claim_next_pending_spec (db : JobDB) (now : Nat) :
    ((∀ j ∈ db.jobs, j.status ≠ "pending") → claim_next_pending db now = (none, db))
    ∧ (∀ res db', claim_next_pending db now = (some res, db') →
        ∃ j0, j0 ∈ db.jobs ∧ j0.status = "pending"
          ∧ (∀ k ∈ db.jobs, k.status = "pending" → j0.created_at ≤ k.created_at)
          ∧ res = claimUpdate j0 now ∧ db' = updateJob db (claimUpdate j0 now)
          ∧ res.status = "running" ∧ res.attempts = j0.attempts + 1
          ∧ res.started_at = some now)
    ∧ ((∃ j ∈ db.jobs, j.status = "pending") →
        (claim_next_pending db now).1.isSome = true)
    ∧ ((db.jobs.filter (fun j => j.status = "pending")).length = 1 →
        ∀ now2, (claim_next_pending (claim_next_pending db now).2 now2).1 = none) := by
  refine ⟨?_, ?_, ?_, ?_⟩
  · intro hnone
    unfold claim_next_pending
    have hfil : db.jobs.filter (fun j => j.status = "pending") = [] := by
      rw [List.filter_eq_nil_iff]
      intro a ha
      simpa using hnone a ha
    rw [hfil, List.mergeSort_nil]
    rfl
  · intro res db' h
    unfold claim_next_pending at h
    cases hh : ((db.jobs.filter (fun j => j.status = "pending")).mergeSort
        (fun a b => decide (a.created_at ≤ b.created_at))).head? with
    | none => rw [hh] at h; simp at h
    | some j0 =>
      rw [hh] at h
      simp only [Prod.mk.injEq, Option.some_inj] at h
      obtain ⟨hres, hdb⟩ := h
      obtain ⟨h1, h2, h3⟩ := claim_head_spec db j0 hh
      exact ⟨j0, h1, h2, h3, hres.symm, hdb.symm, by rw [← hres]; rfl,
        by rw [← hres]; rfl, by rw [← hres]; rfl⟩
  · intro ⟨j, hj, hjp⟩
    unfold claim_next_pending
    cases hh : ((db.jobs.filter (fun j => j.status = "pending")).mergeSort
        (fun a b => decide (a.created_at ≤ b.created_at))).head? with
    | none =>
      exfalso
      rw [List.head?_eq_none_iff] at hh
      have : j ∈ db.jobs.filter (fun j => j.status = "pending") :=
        List.mem_filter.mpr ⟨hj, by simpa using hjp⟩
      have hms : j ∈ (db.jobs.filter (fun j => j.status = "pending")).mergeSort
          (fun a b : Job => decide (a.created_at ≤ b.created_at)) :=
        List.mem_mergeSort.mpr this
      rw [hh] at hms
      simp at hms
    | some j0 => rfl
  · intro honly now2
    cases hh : ((db.jobs.filter (fun j => j.status = "pending")).mergeSort
        (fun a b => decide (a.created_at ≤ b.created_at))).head? with
    | none =>
      have hstay : (claim_next_pending db now).2 = db := by
        unfold claim_next_pending
        rw [hh]
      rw [hstay]
      unfold claim_next_pending
      rw [hh]
    | some j0 =>
      obtain ⟨hj0, hj0p, _⟩ := claim_head_spec db j0 hh
      obtain ⟨x, hx⟩ := List.length_eq_one.mp honly
      have hfil0 : j0 ∈ db.jobs.filter (fun j => j.status = "pending") := by
        exact List.mem_filter.mpr ⟨hj0, by simpa using hj0p⟩
      have hx0 : x = j0 := by
        rw [hx] at hfil0
        exact (List.mem_singleton.mp hfil0).symm
      rw [hx0] at hx
      have hdb' : (claim_next_pending db now).2 = updateJob db (claimUpdate j0 now) := by
        unfold claim_next_pending
        rw [hh]
      rw [hdb']
      have hempty : (updateJob db (claimUpdate j0 now)).jobs.filter
          (fun j => j.status = "pending") = [] := by
        rw [List.filter_eq_nil_iff]
        intro a ha
        simp only [updateJob, List.mem_map] at ha
        obtain ⟨k, hk, hka⟩ := ha
        subst hka
        by_cases hid : k.jobId = (claimUpdate j0 now).jobId
        · rw [if_pos hid]
          simp [claimUpdate]
        · rw [if_neg hid]
          intro hap
          have hkf : k ∈ db.jobs.filter (fun j => j.status = "pending") :=
            List.mem_filter.mpr ⟨hk, hap⟩
          rw [hx] at hkf
          have hkj : k = j0 := List.mem_singleton.mp hkf
          exact hid (by rw [hkj]; rfl)
      unfold claim_next_pending
      rw [hempty, List.mergeSort_nil]
      rfl

/-- Witness for C4 on a two-job table with one pending job. -/
theorem claim_next_pending_spec_witness :
    (claim_next_pending
      ⟨[⟨1, "1", "a1", "10-K", none, none, none, "completed", none, 2, 5, none, none⟩,
        ⟨2, "2", "a2", "10-K", none, none, none, "pending", none, 0, 7, none, none⟩]⟩
      9).1.isSome = true :=
  (claim_next_pending_spec
    ⟨[⟨1, "1", "a1", "10-K", none, none, none, "completed", none, 2, 5, none, none⟩,
      ⟨2, "2", "a2", "10-K", none, none, none, "pending", none, 0, 7, none, none⟩]⟩
    9).2.2.1 ⟨⟨2, "2", "a2", "10-K", none, none, none, "pending", none, 0, 7, none, none⟩,
      by simp, rfl⟩

/-- A row update leaves the updated row in the table whenever a row with
the same primary key was present. -/
theorem updateJob_mem (db : JobDB) (j k : Job) (hk : k ∈ db.jobs)
    (hid : k.jobId = j.jobId) : j ∈ (updateJob db j).jobs := by
  unfold updateJob
  exact List.mem_map.mpr ⟨k, hk, by rw [if_pos hid]⟩

/-- `claim_next_pending` returns `none` exactly when no pending job exists. -/
theorem claim_none_iff (db : JobDB) (now : Nat) :
    (claim_next_pending db now).1 = none ↔ ∀ j ∈ db.jobs, j.status ≠ "pending" := by
  constructor
  · intro h j hj hjp
    unfold claim_next_pending at h
    cases hh : ((db.jobs.filter (fun j => j.status = "pending")).mergeSort
        (fun a b => decide (a.created_at ≤ b.created_at))).head? with
    | none =>
      rw [List.head?_eq_none_iff] at hh
      have hmem : j ∈ db.jobs.filter (fun j => j.status = "pending") :=
        List.mem_filter.mpr ⟨hj, by simpa using hjp⟩
      have hms : j ∈ (db.jobs.filter (fun j => j.status = "pending")).mergeSort
          (fun a b : Job => decide (a.created_at ≤ b.created_at)) :=
        List.mem_mergeSort.mpr hmem
      rw [hh] at hms
      simp at hms
    | some j0 => rw [hh] at h; simp at h
  · intro h
    unfold claim_next_pending
    have hfil : db.jobs.filter (fun j => j.status = "pending") = [] := by
      rw [List.filter_eq_nil_iff]
      intro a ha
      simpa using h a ha
    rw [hfil, List.mergeSort_nil]
    rfl

/-- On success `claim_next_pending` returns the claimed row and the table
with exactly that row replaced. -/
theorem claim_some_shape (db : JobDB) (now : Nat) (job : Job) (db₁ : JobDB)
    (h : claim_next_pending db now = (some job, db₁)) :
    ∃ j0, j0 ∈ db.jobs ∧ job = claimUpdate j0 now
      ∧ db₁ = updateJob db (claimUpdate j0 now) := by
  unfold claim_next_pending at h
  cases hh : ((db.jobs.filter (fun j => j.status = "pending")).mergeSort
      (fun a b => decide (a.created_at ≤ b.created_at))).head? with
  | none => rw [hh] at h; simp at h
  | some j0 =>
    rw [hh] at h
    simp only [Prod.mk.injEq, Option.some_inj] at h
    obtain ⟨h1, h2⟩ := h
    exact ⟨j0, (claim_head_spec db j0 hh).1, h1.symm, h2.symm⟩

/- ===== Claim C7 ===== -/

/-- C7: `process_next` returns `False` exactly when no pending job existed;
when the claimed job's ingestion raises, the exception is caught, the job
row is marked `failed` with the exception message as `error_message` and
`finished_at` stamped, and `process_next` still returns `True`.  The model
is total in the ingestion outcome, so no ingestion exception propagates. -/
theorem worker_loop_error_containment (ingest : Job → Except String Unit)
    (db : JobDB) (now now2 : Nat) :
    ((process_next ingest db now now2).1 = false ↔ ∀ j ∈ db.jobs, j.status ≠ "pending")
    ∧ (∀ job db₁, claim_next_pending db now = (some job, db₁) →
        ∀ msg, ingest job = .error msg →
          (process_next ingest db now now2).1 = true
          ∧ (process_next ingest db now now2).2 = (mark_failed db₁ job msg now2).2
          ∧ ∃ jf, jf ∈ (process_next ingest db now now2).2.jobs
              ∧ jf.jobId = job.jobId ∧ jf.status = "failed"
              ∧ jf.error_message = some msg ∧ jf.finished_at = some now2) := by
  constructor
  · rw [← claim_none_iff db now]
    unfold process_next
    cases hcl : claim_next_pending db now with
    | mk fst snd =>
      cases fst with
      | none => simp
      | some job =>
        simp only
        cases ingest job <;> simp
  · intro job db₁ hcl msg hing
    have hshape := claim_some_shape db now job db₁ hcl
    obtain ⟨j0, hj0, hjob, hdb₁⟩ := hshape
    have hrun : process_next ingest db now now2 = (true, (mark_failed db₁ job msg now2).2) := by
      unfold process_next
      rw [hcl]
      simp only [hing]
    refine ⟨by rw [hrun], by rw [hrun], ?_⟩
    rw [hrun]
    have hjobmem : job ∈ db₁.jobs := by
      rw [hdb₁, hjob]
      exact updateJob_mem db (claimUpdate j0 now) j0 hj0 rfl
    refine ⟨{ job with
              status := "failed"
              error_message := some msg
              finished_at := some now2 }, ?_, rfl, rfl, rfl, rfl⟩
    exact updateJob_mem db₁ _ job hjobmem rfl

unseal List.merge List.mergeSort in
/-- Witness for C7: a one-job table whose ingestion fails. -/
theorem worker_loop_error_containment_witness :
    (process_next (fun _ => .error "boom")
      ⟨[⟨5, "9", "acc", "10-K", none, none, none, "pending", none, 0, 3, none, none⟩]⟩
      11 12).1 = true :=
  ((worker_loop_error_containment (fun _ => .error "boom")
    ⟨[⟨5, "9", "acc", "10-K", none, none, none, "pending", none, 0, 3, none, none⟩]⟩
    11 12).2
    (claimUpdate ⟨5, "9", "acc", "10-K", none, none, none, "pending", none, 0, 3, none, none⟩ 11)
    (updateJob ⟨[⟨5, "9", "acc", "10-K", none, none, none, "pending", none, 0, 3, none, none⟩]⟩
      (claimUpdate ⟨5, "9", "acc", "10-K", none, none, none, "pending", none, 0, 3, none, none⟩ 11))
    (by decide) "boom" (by rfl)).1

/- ===== filing_parser.extract_sections (app/services/sec/filing_parser.py) ===== -/

/-- `\w` (ASCII): the word characters of the regex word-boundary test. -/
def wordChar (c : Char) : Bool := c.isAlphanum || c = '_'

/-- `[a-z]` under the `(?i)` flag. -/
def letterCI (c : Char) : Bool := ('a' ≤ c && c ≤ 'z') || ('A' ≤ c && c ≤ 'Z')

/-- Case-insensitive match of the literal `item`. -/
def itemCI (a b c d : Char) : Bool :=
  (a = 'i' || a = 'I') && (b = 't' || b = 'T') && (c = 'e' || c = 'E') && (d = 'm' || d = 'M')

/-- Whether the character at index `i` exists and is a word character. -/
def isWordAt (t : List Char) (i : Nat) : Bool :=
  match t[i]? with
  | some c => wordChar c
  | none => false

/-- End of the maximal run of characters satisfying `p` starting at `i`. -/
def runEnd (p : Char → Bool) (t : List Char) (i : Nat) : Nat :=
  i + ((t.drop i).takeWhile p).length

/-- The `[a-z]?\b\.?` tail of the item pattern, entered at `q2`, the end
of the maximal digit run: the optional letter is taken when the word
boundary after it holds (backtracking the letter cannot help, since the
boundary would then sit between two word characters), then the optional
dot. -/
def matchTail (t : List Char) (q2 : Nat) : Option Nat :=
  match t[q2]? with
  | some c2 =>
    if letterCI c2 then
      if isWordAt t (q2 + 1) then none
      else if t[q2 + 1]? = some '.' then some (q2 + 2)
      else some (q2 + 1)
    else if wordChar c2 then none
    else if c2 = '.' then some (q2 + 1)
    else some q2
  | none => some q2

/-- Attempt of the compiled pattern `(?i)\bitem\s+\d+[a-z]?\b\.?` at
position `i` of the text, following the regex engine's greedy matching
with backtracking: maximal `\s+` and `\d+` runs (their successors are in
disjoint character classes, so giving characters back can never help),
then the tail.  Returns the end position of the match. -/
def matchAt (t : List Char) (i : Nat) : Option Nat :=
  if i = 0 || !isWordAt t (i - 1) then
    match t[i]?, t[i+1]?, t[i+2]?, t[i+3]? with
    | some a, some b, some c, some d =>
      if itemCI a b c d then
        if runEnd pyWhitespace t (i + 4) = i + 4 then none
        else if runEnd Char.isDigit t (runEnd pyWhitespace t (i + 4)) =
            runEnd pyWhitespace t (i + 4) then none
        else matchTail t (runEnd Char.isDigit t (runEnd pyWhitespace t (i + 4)))
      else none
    | _, _, _, _ => none
  else none

/-- `pattern.finditer(text)`: scan left to right, emitting each
non-overlapping match and resuming at its end. -/
def findFrom (t : List Char) : Nat → Nat → List (Nat × Nat)
  | 0, _ => []
  | fuel + 1, p =>
    if t.length < p then []
    else match matchAt t p with
      | some e => (p, e) :: findFrom t fuel (max e (p + 1))
      | none => findFrom t fuel (p + 1)

/-- All matches of the item-marker pattern, in order. -/
def finditer (t : List Char) : List (Nat × Nat) :=
  findFrom t (t.length + 2) 0

/-- A `FilingSection` (filing_parser.py). -/
structure FilingSection where
  title : List Char
  text : List Char
deriving DecidableEq

/-- The section-building loop of `extract_sections`: each segment runs from
one match start to the next match start (or end of text); the title is the
stripped matched marker with newlines replaced by spaces; segments shorter
than 200 characters after stripping are discarded. -/
def sectionsOfMatches (t : List Char) : List (Nat × Nat) → List FilingSection
  | [] => []
  | (s, e) :: rest =>
    let endPos := match rest.head? with
      | some m2 => m2.1
      | none => t.length
    let title := (pyStrip (pySliceN t s e)).map (fun c => if c = '\n' then ' ' else c)
    let text := pyStrip (pySliceN t s endPos)
    (if text.length < 200 then [] else [⟨title, text⟩]) ++ sectionsOfMatches t rest

/-- `extract_sections`: item-based segmentation with the
whole-document fallback when no marker is found or no segment survives. -/
def extractSections (t : List Char) : List FilingSection :=
  let ms := finditer t
  if ms.isEmpty then [⟨"Full Document".data, t⟩]
  else
    let secs := sectionsOfMatches t ms
    if secs.isEmpty then [⟨"Full Document".data, t⟩] else secs

/- ===== Lemmas about the item-marker matcher ===== -/

theorem runEnd_ge (p : Char → Bool) (t : List Char) (i : Nat) : i ≤ runEnd p t i := by
  unfold runEnd
  omega

theorem runEnd_le_length (p : Char → Bool) (t : List Char) (i : Nat) (h : i ≤ t.length) :
    runEnd p t i ≤ t.length := by
  unfold runEnd
  have h1 : ((t.drop i).takeWhile p).length ≤ (t.drop i).length :=
    (List.takeWhile_sublist p).length_le
  have h2 : (t.drop i).length = t.length - i := List.length_drop i t
  omega

/-- Every position inside a maximal run satisfies the run predicate. -/
theorem runEnd_sat (p : Char → Bool) (t : List Char) (i j : Nat)
    (hij : i ≤ j) (hj : j < runEnd p t i) :
    ∃ c, t[j]? = some c ∧ p c = true := by
  unfold runEnd at hj
  have hk : j - i < ((t.drop i).takeWhile p).length := by omega
  have hkd : j - i < (t.drop i).length :=
    lt_of_lt_of_le hk (List.takeWhile_sublist p).length_le
  have heq : ((t.drop i).takeWhile p)[j-i] = (t.drop i)[j-i] :=
    (List.takeWhile_prefix p).getElem hk
  have hpc : p (((t.drop i).takeWhile p)[j-i]) = true :=
    List.mem_takeWhile_imp (List.getElem_mem hk)
  have hjq : t[j]? = some ((t.drop i)[j-i]) := by
    have h2 := List.getElem?_drop t i (j - i)
    rw [List.getElem?_eq_getElem hkd] at h2
    rw [show i + (j - i) = j by omega] at h2
    exact h2.symm
  exact ⟨_, hjq, by rw [← heq]; exact hpc⟩

theorem letterCI_not_ws (c : Char) (h : letterCI c = true) : pyWhitespace c = false := by
  unfold pyWhitespace
  simp only [Bool.or_eq_false_iff, decide_eq_false_iff_not]
  refine ⟨⟨⟨⟨⟨?_, ?_⟩, ?_⟩, ?_⟩, ?_⟩, ?_⟩ <;>
    · intro hc
      subst hc
      exact absurd h (by decide)

theorem isDigit_not_ws (c : Char) (h : c.isDigit = true) : pyWhitespace c = false := by
  unfold pyWhitespace
  simp only [Bool.or_eq_false_iff, decide_eq_false_iff_not]
  refine ⟨⟨⟨⟨⟨?_, ?_⟩, ?_⟩, ?_⟩, ?_⟩, ?_⟩ <;>
    · intro hc
      subst hc
      exact absurd h (by decide)

/-- `matchTail` never moves backwards, stays within the text, and ends on
a non-whitespace character provided the character before `q2` is
non-whitespace. -/
theorem matchTail_spec (t : List Char) (q2 e : Nat) (hq2 : q2 ≤ t.length)
    (hprev : ∃ c, t[q2-1]? = some c ∧ pyWhitespace c = false)
    (h : matchTail t q2 = some e) :
    q2 ≤ e ∧ e ≤ t.length ∧ ∃ c, t[e-1]? = some c ∧ pyWhitespace c = false := by
  unfold matchTail at h
  cases hc : t[q2]? with
  | none =>
    rw [hc] at h
    simp only [Option.some_inj] at h
    subst h
    exact ⟨le_refl _, hq2, hprev⟩
  | some c2 =>
    rw [hc] at h
    simp only at h
    have hq2lt : q2 < t.length := by
      by_contra hcon
      rw [List.getElem?_eq_none (by omega)] at hc
      simp at hc
    by_cases hlet : letterCI c2 = true
    · rw [if_pos hlet] at h
      by_cases hword : isWordAt t (q2+1) = true
      · rw [if_pos hword] at h; simp at h
      · rw [if_neg hword] at h
        by_cases hdot : t[q2+1]? = some '.'
        · rw [if_pos hdot] at h
          simp only [Option.some_inj] at h
          subst h
          have hq21 : q2 + 1 < t.length := by
            by_contra hcon
            rw [List.getElem?_eq_none (by omega)] at hdot
            simp at hdot
          exact ⟨by omega, by omega, '.', by simpa using hdot, by decide⟩
        · rw [if_neg hdot] at h
          simp only [Option.some_inj] at h
          subst h
          exact ⟨by omega, by omega, c2, by simpa using hc, letterCI_not_ws c2 hlet⟩
    · rw [if_neg hlet] at h
      by_cases hword : wordChar c2 = true
      · rw [if_pos hword] at h; simp at h
      · rw [if_neg hword] at h
        by_cases hdot : c2 = '.'
        · rw [if_pos hdot] at h
          simp only [Option.some_inj] at h
          subst h
          refine ⟨by omega, by omega, c2, by simpa using hc, ?_⟩
          rw [hdot]; decide
        · rw [if_neg hdot] at h
          simp only [Option.some_inj] at h
          subst h
          exact ⟨le_refl _, hq2, hprev⟩

/-- A successful match starts with `i`/`I`, spans at least six characters,
stays within the text, and ends on a non-whitespace character. -/
theorem matchAt_spec (t : List Char) (i e : Nat) (h : matchAt t i = some e) :
    (∃ a, t[i]? = some a ∧ (a = 'i' ∨ a = 'I'))
    ∧ i + 6 ≤ e ∧ e ≤ t.length
    ∧ ∃ c, t[e-1]? = some c ∧ pyWhitespace c = false := by
  unfold matchAt at h
  by_cases hb : (i = 0 || !isWordAt t (i - 1)) = true
  case neg => rw [if_neg hb] at h; simp at h
  rw [if_pos hb] at h
  cases h0 : t[i]? with
  | none => rw [h0] at h; simp at h
  | some a =>
  cases h1 : t[i+1]? with
  | none => rw [h0, h1] at h; simp at h
  | some b =>
  cases h2 : t[i+2]? with
  | none => rw [h0, h1, h2] at h; simp at h
  | some c =>
  cases h3 : t[i+3]? with
  | none => rw [h0, h1, h2, h3] at h; simp at h
  | some d =>
  rw [h0, h1, h2, h3] at h
  simp only at h
  by_cases hitem : itemCI a b c d = true
  case neg => rw [if_neg hitem] at h; simp at h
  rw [if_pos hitem] at h
  by_cases hws : runEnd pyWhitespace t (i + 4) = i + 4
  case pos => rw [if_pos hws] at h; simp at h
  rw [if_neg hws] at h
  by_cases hdig : runEnd Char.isDigit t (runEnd pyWhitespace t (i + 4)) =
      runEnd pyWhitespace t (i + 4)
  case pos => rw [if_pos hdig] at h; simp at h
  rw [if_neg hdig] at h
  have hlen3 : i + 3 < t.length := by
    by_contra hcon
    rw [List.getElem?_eq_none (by omega)] at h3
    simp at h3
  have hq1ge : i + 4 ≤ runEnd pyWhitespace t (i + 4) := runEnd_ge _ _ _
  have hq1le : runEnd pyWhitespace t (i + 4) ≤ t.length :=
    runEnd_le_length _ _ _ (by omega)
  have hq2ge : runEnd pyWhitespace t (i + 4) ≤
      runEnd Char.isDigit t (runEnd pyWhitespace t (i + 4)) := runEnd_ge _ _ _
  have hq2le : runEnd Char.isDigit t (runEnd pyWhitespace t (i + 4)) ≤ t.length :=
    runEnd_le_length _ _ _ hq1le
  have hprev : ∃ c, t[runEnd Char.isDigit t (runEnd pyWhitespace t (i + 4)) - 1]? = some c ∧
      pyWhitespace c = false := by
    obtain ⟨c, hcq, hcd⟩ := runEnd_sat Char.isDigit t (runEnd pyWhitespace t (i + 4))
      (runEnd Char.isDigit t (runEnd pyWhitespace t (i + 4)) - 1) (by omega) (by omega)
    exact ⟨c, hcq, isDigit_not_ws c hcd⟩
  obtain ⟨he1, he2, he3⟩ := matchTail_spec t _ e hq2le hprev h
  refine ⟨⟨a, rfl, ?_⟩, by omega, he2, he3⟩
  unfold itemCI at hitem
  simp only [Bool.and_eq_true, Bool.or_eq_true, decide_eq_true_eq] at hitem
  exact hitem.1.1.1

/- ===== Lemmas about finditer and section building ===== -/

theorem findFrom_spec (t : List Char) :
    ∀ fuel p, ∀ pr ∈ findFrom t fuel p, matchAt t pr.1 = some pr.2 ∧ p ≤ pr.1 := by
  intro fuel
  induction fuel with
  | zero => intro p pr hpr; simp [findFrom] at hpr
  | succ n ih =>
    intro p pr hpr
    unfold findFrom at hpr
    split_ifs at hpr with hlen
    · simp at hpr
    · cases hm : matchAt t p with
      | none =>
        rw [hm] at hpr
        obtain ⟨h1, h2⟩ := ih (p + 1) pr hpr
        exact ⟨h1, by omega⟩
      | some e =>
        rw [hm] at hpr
        rcases List.mem_cons.mp hpr with hpr | hpr
        · subst hpr; exact ⟨hm, le_refl _⟩
        · obtain ⟨h1, h2⟩ := ih (max e (p + 1)) pr hpr
          refine ⟨h1, ?_⟩
          have := le_max_right e (p + 1)
          omega

theorem findFrom_chain (t : List Char) :
    ∀ fuel p, List.Chain' (fun x y : Nat × Nat => x.2 ≤ y.1) (findFrom t fuel p) := by
  intro fuel
  induction fuel with
  | zero => intro p; simp [findFrom]
  | succ n ih =>
    intro p
    unfold findFrom
    split_ifs with hlen
    · simp
    · cases hm : matchAt t p with
      | none => exact ih (p + 1)
      | some e =>
        rw [List.chain'_cons']
        refine ⟨?_, ih (max e (p + 1))⟩
        intro y hy
        have hmem : y ∈ findFrom t n (max e (p + 1)) := List.mem_of_mem_head? hy
        have := (findFrom_spec t n (max e (p + 1)) y hmem).2
        have := le_max_left e (p + 1)
        omega

theorem pySliceN_eq (t : List Char) (a b : Nat) :
    pySliceN t a b = (t.drop a).take (b - a) := by
  unfold pySliceN
  rw [List.drop_take]

theorem pySliceN_prefix (t : List Char) (a b₁ b₂ : Nat) (h : b₁ ≤ b₂) :
    pySliceN t a b₁ <+: pySliceN t a b₂ := by
  rw [pySliceN_eq, pySliceN_eq]
  have heq : (t.drop a).take (b₁ - a) = ((t.drop a).take (b₂ - a)).take (b₁ - a) := by
    rw [List.take_take, min_eq_left (by omega)]
  rw [heq]
  exact List.take_prefix _ _

theorem pySliceN_head (t : List Char) (a b : Nat) (hab : a < b) (_hal : a < t.length) :
    (pySliceN t a b).head? = t[a]? := by
  rw [pySliceN_eq, List.head?_eq_getElem?]
  rw [List.getElem?_take]
  rw [if_pos (by omega)]
  rw [List.getElem?_drop]
  congr 1

theorem pySliceN_getLast (t : List Char) (a b : Nat) (hab : a < b) (hb : b ≤ t.length) :
    (pySliceN t a b).getLast? = t[b-1]? := by
  rw [pySliceN_eq, List.getLast?_eq_getElem?]
  have hlen : ((t.drop a).take (b - a)).length = b - a := by
    rw [List.length_take, List.length_drop]
    omega
  rw [hlen, List.getElem?_take, if_pos (by omega), List.getElem?_drop]
  congr 1
  omega

theorem lstrip_of_head (s : List Char) (c : Char) (hc : s.head? = some c)
    (hw : pyWhitespace c = false) : lstrip s = s := by
  cases s with
  | nil => simp at hc
  | cons d rest =>
    simp only [List.head?_cons, Option.some_inj] at hc
    subst hc
    unfold lstrip
    rw [List.dropWhile_cons_of_neg (by rw [hw]; simp)]

theorem dropWhile_append_of_head (p : Char → Bool) :
    ∀ (a b : List Char), (∃ c, b.head? = some c ∧ p c = false) →
      ∃ x, List.dropWhile p (a ++ b) = x ++ b := by
  intro a
  induction a with
  | nil =>
    intro b hb
    obtain ⟨c, hc, hpc⟩ := hb
    refine ⟨[], ?_⟩
    cases b with
    | nil => simp at hc
    | cons d rest =>
      simp only [List.head?_cons, Option.some_inj] at hc
      subst hc
      simp only [List.nil_append]
      rw [List.dropWhile_cons_of_neg (by rw [hpc]; simp)]
  | cons d a' ih =>
    intro b hb
    by_cases hd : p d = true
    · obtain ⟨x, hx⟩ := ih b hb
      refine ⟨x, ?_⟩
      rw [List.cons_append, List.dropWhile_cons_of_pos hd]
      exact hx
    · refine ⟨d :: a', ?_⟩
      rw [List.cons_append, List.dropWhile_cons_of_neg hd]

theorem prefix_rstrip (m s : List Char) (hp : m <+: s)
    (hlast : ∃ c, m.getLast? = some c ∧ pyWhitespace c = false) : m <+: rstrip s := by
  obtain ⟨rest, hrest⟩ := hp
  obtain ⟨c, hc1, hc2⟩ := hlast
  unfold rstrip
  subst hrest
  rw [List.reverse_append]
  have hmh : m.reverse.head? = some c := by rw [List.head?_reverse]; exact hc1
  obtain ⟨x, hx⟩ := dropWhile_append_of_head pyWhitespace rest.reverse m.reverse ⟨c, hmh, hc2⟩
  rw [hx, List.reverse_append, List.reverse_reverse]
  exact ⟨x.reverse, rfl⟩

theorem sectionsOfMatches_spec (t : List Char) :
    ∀ ms, (∀ m ∈ ms, matchAt t m.1 = some m.2) →
      List.Chain' (fun x y : Nat × Nat => x.2 ≤ y.1) ms →
      ∀ sec ∈ sectionsOfMatches t ms,
        200 ≤ sec.text.length ∧
          ∃ p e, matchAt t p = some e ∧ pySliceN t p e <+: sec.text := by
  intro ms
  induction ms with
  | nil => intro _ _ sec hsec; simp [sectionsOfMatches] at hsec
  | cons m rest ih =>
    intro hall hchain sec hsec
    obtain ⟨s, e⟩ := m
    unfold sectionsOfMatches at hsec
    rcases List.mem_append.mp hsec with hsec | hsec
    · have hma : matchAt t s = some e := hall (s, e) (List.mem_cons_self _ _)
      obtain ⟨⟨a, ha, hai⟩, hlen6, helen, hc, hcq, hcw⟩ := matchAt_spec t s e hma
      split_ifs at hsec with hshort
      · simp at hsec
      · have hsec' : sec = ⟨(pyStrip (pySliceN t s e)).map
            (fun c => if c = '\n' then ' ' else c),
            pyStrip (pySliceN t s (match rest.head? with
              | some m2 => m2.1
              | none => t.length))⟩ := by simpa using hsec
        set endPos : Nat := (match rest.head? with
          | some m2 => m2.1
          | none => t.length) with hEndPos
        have hend1 : e ≤ endPos := by
          rw [hEndPos]
          cases hr : rest.head? with
          | none => simpa using helen
          | some m2 =>
            simp only
            have := (List.chain'_cons'.mp hchain).1 m2 hr
            simpa using this
        have hend2 : endPos ≤ t.length := by
          rw [hEndPos]
          cases hr : rest.head? with
          | none => simp
          | some m2 =>
            simp only
            have hm2 : m2 ∈ rest := List.mem_of_mem_head? hr
            have hm2m := hall m2 (List.mem_cons_of_mem _ hm2)
            have := (matchAt_spec t m2.1 m2.2 hm2m).2.2.1
            have := (matchAt_spec t m2.1 m2.2 hm2m).2.1
            omega
        have hslt : s < t.length := by
          by_contra hcon
          rw [List.getElem?_eq_none (by omega)] at ha
          simp at ha
        have hhead : (pySliceN t s endPos).head? = some a := by
          rw [pySliceN_head t s endPos (by omega) hslt]
          exact ha
        have hanw : pyWhitespace a = false := by
          rcases hai with h | h <;> (subst h; decide)
        have hlstrip : lstrip (pySliceN t s endPos) = pySliceN t s endPos :=
          lstrip_of_head _ a hhead hanw
        have hmarker : pySliceN t s e <+: pySliceN t s endPos :=
          pySliceN_prefix t s e endPos hend1
        have hlastm : (pySliceN t s e).getLast? = some hc := by
          rw [pySliceN_getLast t s e (by omega) helen]
          exact hcq
        have hfinal : pySliceN t s e <+: pyStrip (pySliceN t s endPos) := by
          unfold pyStrip
          rw [hlstrip]
          exact prefix_rstrip _ _ hmarker ⟨hc, hlastm, hcw⟩
        rw [hsec']
        refine ⟨by simpa using hshort, s, e, hma, by simpa using hfinal⟩
    · exact ih (fun m hm => hall m (List.mem_cons_of_mem _ hm))
        (List.Chain'.tail hchain) sec hsec

/-- The section loop discards everything exactly when every segment — each
running from one match start to the next match start (or end of text) —
strips to fewer than 200 characters. -/
theorem sectionsOfMatches_eq_nil_iff (t : List Char) :
    ∀ ms, sectionsOfMatches t ms = [] ↔
      ∀ pre m post, ms = pre ++ m :: post →
        (pyStrip (pySliceN t m.1 (match post.head? with
          | some m2 => m2.1
          | none => t.length))).length < 200 := by
  intro ms
  induction ms with
  | nil =>
    constructor
    · intro _ pre m post h
      cases pre <;> simp at h
    · intro _
      rfl
  | cons hd rest ih =>
    obtain ⟨s, e⟩ := hd
    unfold sectionsOfMatches
    dsimp only
    rw [List.append_eq_nil]
    constructor
    · intro h pre m post hdec
      obtain ⟨h1, h2⟩ := h
      cases pre with
      | nil =>
        simp only [List.nil_append] at hdec
        injection hdec with hm hrest
        subst hm
        subst hrest
        by_contra hge
        rw [if_neg hge] at h1
        simp at h1
      | cons x pre2 =>
        simp only [List.cons_append] at hdec
        injection hdec with hx hrest
        exact (ih.mp h2) pre2 m post hrest
    · intro h
      constructor
      · have hhead := h [] (s, e) rest (by simp)
        rw [if_pos hhead]
      · exact ih.mpr (fun pre m post hdec =>
          h ((s, e) :: pre) m post (by rw [hdec, List.cons_append]))

/- ===== Claim C8 ===== -/

/-- C8: `extract_sections` never returns an empty list; it returns exactly
the single `"Full Document"` section carrying the whole input when no
section survives — that is, when no item marker is found or (equivalently,
by the iff conjunct) every segment between markers strips to fewer than
200 characters — and otherwise it returns exactly the surviving segments,
each at least 200 characters long and beginning with a matched
case-insensitive `Item <number><optional letter>` marker. -/
theorem section_extraction_spec (t : List Char) :
    extractSections t ≠ []
    ∧ (sectionsOfMatches t (finditer t) = [] ↔
        ∀ pre m post, finditer t = pre ++ m :: post →
          (pyStrip (pySliceN t m.1 (match post.head? with
            | some m2 => m2.1
            | none => t.length))).length < 200)
    ∧ ((finditer t = [] ∨ sectionsOfMatches t (finditer t) = []) →
        extractSections t = [⟨"Full Document".data, t⟩])
    ∧ (finditer t ≠ [] → sectionsOfMatches t (finditer t) ≠ [] →
        extractSections t = sectionsOfMatches t (finditer t)
        ∧ ∀ sec ∈ extractSections t, 200 ≤ sec.text.length ∧
            ∃ p e, matchAt t p = some e ∧ pySliceN t p e <+: sec.text) := by
  refine ⟨?_, sectionsOfMatches_eq_nil_iff t (finditer t), ?_, ?_⟩
  · unfold extractSections
    by_cases hms : (finditer t).isEmpty
    · rw [if_pos hms]
      simp
    · rw [if_neg hms]
      by_cases hsecs : (sectionsOfMatches t (finditer t)).isEmpty
      · rw [if_pos hsecs]
        simp
      · rw [if_neg hsecs]
        simpa [List.isEmpty_iff] using hsecs
  · intro h
    unfold extractSections
    rcases h with h | h
    · rw [if_pos (by rw [h]; rfl)]
    · by_cases hms : (finditer t).isEmpty
      · rw [if_pos hms]
      · rw [if_neg hms, if_pos (by rw [h]; rfl)]
  · intro h1 h2
    have hres : extractSections t = sectionsOfMatches t (finditer t) := by
      unfold extractSections
      rw [if_neg (by simpa [List.isEmpty_iff] using h1),
        if_neg (by simpa [List.isEmpty_iff] using h2)]
    refine ⟨hres, ?_⟩
    rw [hres]
    intro sec hsec
    exact sectionsOfMatches_spec t (finditer t)
      (fun m hm => (findFrom_spec t (t.length + 2) 0 m hm).1)
      (findFrom_chain t (t.length + 2) 0) sec hsec

set_option maxRecDepth 40000 in
/-- Witness for C8: a marker-free input falls back to one
`"Full Document"` section, while a filing text whose `Item 1` section is
long enough comes back as the surviving marker-anchored sections, not the
fallback. -/
theorem section_extraction_spec_witness :
    extractSections "no markers here".data =
        [⟨"Full Document".data, "no markers here".data⟩]
    ∧ extractSections ("Item 1. Business. Alpha Widget Works designs, manufactures and distributes precision widgets for industrial customers in several regions. The firm also provides maintenance services, replacement parts and operator training programs that together produce most of its recurring annual revenue.").data =
        sectionsOfMatches ("Item 1. Business. Alpha Widget Works designs, manufactures and distributes precision widgets for industrial customers in several regions. The firm also provides maintenance services, replacement parts and operator training programs that together produce most of its recurring annual revenue.").data
          (finditer ("Item 1. Business. Alpha Widget Works designs, manufactures and distributes precision widgets for industrial customers in several regions. The firm also provides maintenance services, replacement parts and operator training programs that together produce most of its recurring annual revenue.").data)
    ∧ ∀ sec ∈ extractSections ("Item 1. Business. Alpha Widget Works designs, manufactures and distributes precision widgets for industrial customers in several regions. The firm also provides maintenance services, replacement parts and operator training programs that together produce most of its recurring annual revenue.").data,
        200 ≤ sec.text.length :=
  ⟨(section_extraction_spec "no markers here".data).2.2.1 (Or.inl (by rfl)),
   ((section_extraction_spec _).2.2.2 (by decide) (by decide)).1,
   fun sec hsec =>
     (((section_extraction_spec _).2.2.2 (by decide) (by decide)).2 sec hsec).1⟩

/- ===== SECFilingIngestionService (app/services/sec/ingestion.py) ===== -/

/-- A `sec_companies` row (app/database/models.py). -/
structure Company where
  companyId : Nat
  cik : String
  company_name : Option String
deriving DecidableEq

/-- A `sec_filings` row; `accession_number` is a unique key. -/
structure Filing where
  filingId : Nat
  accession_number : String
  company_id : Nat
  form_type : String
  filed_date : Nat
  filing_url : String
  status : String
  document_id : Option Nat
  filing_metadata : String
deriving DecidableEq

/-- A `documents` row as created by `DocumentRepository.create_document`. -/
structure DocRecord where
  docId : Nat
  filename : String
  file_size : Nat
  file_type : String
  status : String
  chunks_count : Nat
deriving DecidableEq

/-- The relational state `ingest_filing` touches, with allocation
counters standing in for generated primary keys. -/
structure IngestDB where
  companies : List Company
  filings : List Filing
  documents : List DocRecord
  nextCompanyId : Nat
  nextFilingId : Nat
  nextDocumentId : Nat
deriving DecidableEq

/-- Side-effect counters for one `ingest_filing` call: calls to
`download_primary_filing_html`, to `embed_async`, and to
`vector_store.add_documents`. -/
structure Effects where
  downloads : Nat
  embedCalls : Nat
  vectorWrites : Nat
deriving DecidableEq

/-- The external collaborators of `ingest_filing`: the EDGAR download
(modelled in detail for C9 as `downloadPrimary`), the BeautifulSoup
`html_to_text` conversion, `datetime.fromisoformat(...).date()`, today's
date, and the embedding provider. -/
structure IngestWorld where
  downloadHtml : String → String → Except String String
  htmlToText : String → List Char
  parseDate : String → Nat
  today : Nat
  embed : List (List Char) → List (List Int)

/-- The unique-key constraint on `sec_filings.accession_number`
(models.py: `unique=True`). -/
def UniqueAccessions (db : IngestDB) : Prop :=
  db.filings.Pairwise (fun f g => f.accession_number ≠ g.accession_number)

/-- `SECFilingIngestionService._get_or_create_company`: look up by CIK,
fill in a missing name, or insert a new company row. -/
def getOrCreateCompany (db : IngestDB) (cik : String) (companyName : Option String) :
    Company × IngestDB :=
  match db.companies.find? (fun c => c.cik = cik) with
  | some company =>
    if pyTruthy companyName ∧ ¬(pyTruthy company.company_name = true) then
      ({ company with company_name := companyName },
       { db with companies := db.companies.map (fun c =>
          if c.companyId = company.companyId then { company with company_name := companyName }
          else c) })
    else (company, db)
  | none =>
    (⟨db.nextCompanyId, cik, companyName⟩,
     { db with
       companies := db.companies ++ [⟨db.nextCompanyId, cik, companyName⟩]
       nextCompanyId := db.nextCompanyId + 1 })

/-- `json.dumps({"source": "edgar"})`. -/
def filingMetadataEdgar : String := "\x7b\"source\": \"edgar\"\x7d"

/-- The download-parse-chunk-embed-index tail of `ingest_filing` (source
lines after the idempotence check), operating on the filing row `filing0`
that was found or created: download the primary HTML, extract sections,
create the document record, chunk each section with the service's
processor (`chunk_size=1200, chunk_overlap=200, strategy="sentence"`),
embed all chunks in one batch, write them to the vector store (an external
engine, counted in `Effects`), mark the document completed and the filing
`indexed`. -/
def ingestBody (w : IngestWorld) (db2 : IngestDB) (filing0 : Filing)
    (cikPadded accession : String) : Except String Filing × IngestDB × Effects :=
  match w.downloadHtml cikPadded accession with
  | .error e => (.error e, db2, ⟨1, 0, 0⟩)
  | .ok html =>
    let sections := extractSections (w.htmlToText html)
    let docRec : DocRecord :=
      ⟨db2.nextDocumentId, accession ++ ".html", html.length, "sec_filing", "processing", 0⟩
    let chunks := (sections.map (fun s => chunkBySentence 1200 200 s.text)).flatten
    let _embeddings := w.embed chunks
    let docRec2 := { docRec with status := "completed", chunks_count := chunks.length }
    let filing1 := { filing0 with document_id := some docRec.docId, status := "indexed" }
    (.ok filing1,
     { db2 with
       documents := db2.documents ++ [docRec2]
       nextDocumentId := db2.nextDocumentId + 1
       filings := db2.filings.map (fun f =>
         if f.filingId = filing0.filingId then filing1 else f) },
     ⟨1, 1, 1⟩)

/-- `SECFilingIngestionService.ingest_filing`: upsert the company, short
circuit when a filing with this accession number is already `indexed`,
otherwise create or reuse the filing row (a new row starts as
`downloading`) and run the ingestion tail. -/
def ingest_filing (w : IngestWorld) (db : IngestDB)
    (cik accession form_type : String)
    (filed_date company_name filing_url : Option String) :
    Except String Filing × IngestDB × Effects :=
  let cikPadded := zfill 10 cik
  let cdb := getOrCreateCompany db cikPadded company_name
  match cdb.2.filings.find? (fun f => f.accession_number = accession) with
  | some existing =>
    if existing.status = "indexed" then (.ok existing, cdb.2, ⟨0, 0, 0⟩)
    else ingestBody w cdb.2 existing cikPadded accession
  | none =>
    ingestBody w
      { cdb.2 with
        filings := cdb.2.filings ++
          [⟨cdb.2.nextFilingId, accession, cdb.1.companyId, form_type,
            (match filed_date with | some d => w.parseDate d | none => w.today),
            pyOrS filing_url "", "downloading", none, filingMetadataEdgar⟩]
        nextFilingId := cdb.2.nextFilingId + 1 }
      ⟨cdb.2.nextFilingId, accession, cdb.1.companyId, form_type,
        (match filed_date with | some d => w.parseDate d | none => w.today),
        pyOrS filing_url "", "downloading", none, filingMetadataEdgar⟩
      cikPadded accession

/-- `_get_or_create_company` never touches the filings table. -/
theorem getOrCreateCompany_filings (db : IngestDB) (cik : String)
    (n : Option String) : (getOrCreateCompany db cik n).2.filings = db.filings := by
  unfold getOrCreateCompany
  cases h : db.companies.find? (fun c => c.cik = cik) with
  | some company =>
    dsimp only
    split_ifs <;> rfl
  | none => rfl

/-- With pairwise-distinct keys, `find?` locates exactly the member row
with the sought key. -/
theorem find?_unique_key (l : List Filing) (a : String) (f : Filing)
    (hu : l.Pairwise (fun x y => x.accession_number ≠ y.accession_number))
    (hf : f ∈ l) (ha : f.accession_number = a) :
    l.find? (fun g => g.accession_number = a) = some f := by
  induction l with
  | nil => simp at hf
  | cons x rest ih =>
    rcases List.mem_cons.mp hf with hfx | hfr
    · subst hfx
      rw [List.find?_cons_of_pos _ (by simpa using ha)]
    · by_cases hx : x.accession_number = a
      · exfalso
        have := (List.pairwise_cons.mp hu).1 f hfr
        rw [hx, ha] at this
        exact this rfl
      · rw [List.find?_cons_of_neg _ (by simpa using hx)]
        exact ih (List.pairwise_cons.mp hu).2 hfr

/-- The idempotent short-circuit of one `ingest_filing` call. -/
theorem ingest_filing_shortcircuit (w : IngestWorld) (db : IngestDB)
    (cik accession form_type : String)
    (filed_date company_name filing_url : Option String) (f : Filing)
    (hu : UniqueAccessions db) (hf : f ∈ db.filings)
    (ha : f.accession_number = accession) (hst : f.status = "indexed") :
    ingest_filing w db cik accession form_type filed_date company_name filing_url =
      (.ok f, (getOrCreateCompany db (zfill 10 cik) company_name).2, ⟨0, 0, 0⟩) := by
  simp only [ingest_filing]
  have hfil := getOrCreateCompany_filings db (zfill 10 cik) company_name
  have hfind : (getOrCreateCompany db (zfill 10 cik) company_name).2.filings.find?
      (fun g => g.accession_number = accession) = some f := by
    rw [hfil]
    exact find?_unique_key db.filings accession f hu hf ha
  rw [hfind]
  dsimp only
  rw [if_pos hst]

/- ===== Claim C1 ===== -/

/-- C1: when the database already holds a Filing with the requested
accession number in status `indexed`, `ingest_filing` returns that row
unchanged, performs no document download, no embedding call and no
vector-store write, and leaves the filings table unchanged — so a second
call returns an equal record and the two calls together perform zero
index-writes. -/
theorem ingest_filing_idempotent (w : IngestWorld) (db : IngestDB)
    (cik accession form_type : String)
    (filed_date company_name filing_url : Option String) (f : Filing)
    (hu : UniqueAccessions db) (hf : f ∈ db.filings)
    (ha : f.accession_number = accession) (hst : f.status = "indexed") :
    (ingest_filing w db cik accession form_type filed_date company_name filing_url).1 =
        .ok f
    ∧ (ingest_filing w db cik accession form_type filed_date company_name
        filing_url).2.1.filings = db.filings
    ∧ (ingest_filing w db cik accession form_type filed_date company_name
        filing_url).2.2 = ⟨0, 0, 0⟩
    ∧ (ingest_filing w
        (ingest_filing w db cik accession form_type filed_date company_name filing_url).2.1
        cik accession form_type filed_date company_name filing_url).1 = .ok f
    ∧ (ingest_filing w
        (ingest_filing w db cik accession form_type filed_date company_name filing_url).2.1
        cik accession form_type filed_date company_name filing_url).2.2 = ⟨0, 0, 0⟩ := by
  have h1 := ingest_filing_shortcircuit w db cik accession form_type filed_date
    company_name filing_url f hu hf ha hst
  have hfil := getOrCreateCompany_filings db (zfill 10 cik) company_name
  have hdb1fil : (ingest_filing w db cik accession form_type filed_date company_name
      filing_url).2.1.filings = db.filings := by
    rw [h1]
    exact hfil
  have hu1 : UniqueAccessions (ingest_filing w db cik accession form_type filed_date
      company_name filing_url).2.1 := by
    unfold UniqueAccessions
    rw [hdb1fil]
    exact hu
  have hf1 : f ∈ (ingest_filing w db cik accession form_type filed_date company_name
      filing_url).2.1.filings := by
    rw [hdb1fil]
    exact hf
  have h2 := ingest_filing_shortcircuit w _ cik accession form_type filed_date
    company_name filing_url f hu1 hf1 ha hst
  exact ⟨by rw [h1], hdb1fil, by rw [h1], by rw [h2], by rw [h2]⟩

/-- Witness for C1: a one-filing database already `indexed`, with trivial
collaborators. -/
theorem ingest_filing_idempotent_witness :
    (ingest_filing
      ⟨fun _ _ => .ok "<html></html>", fun s => s.data, fun _ => 0, 0, fun _ => []⟩
      ⟨[], [⟨7, "0001-23-000001", 3, "10-K", 0, "", "indexed", some 9, ""⟩], [], 0, 8, 10⟩
      "320193" "0001-23-000001" "10-K" none none none).1 =
      .ok ⟨7, "0001-23-000001", 3, "10-K", 0, "", "indexed", some 9, ""⟩ :=
  (ingest_filing_idempotent
    ⟨fun _ _ => .ok "<html></html>", fun s => s.data, fun _ => 0, 0, fun _ => []⟩
    ⟨[], [⟨7, "0001-23-000001", 3, "10-K", 0, "", "indexed", some 9, ""⟩], [], 0, 8, 10⟩
    "320193" "0001-23-000001" "10-K" none none none
    ⟨7, "0001-23-000001", 3, "10-K", 0, "", "indexed", some 9, ""⟩
    (by simp [UniqueAccessions]) (by simp) rfl rfl).1

/- ===== EdgarClient.download_primary_filing_html (edgar_client.py) ===== -/

/-- One entry of the filing index's `directory.item` array; a missing
`name` is the empty string and a missing `size` is 0, matching the
`.get(...)` defaults. -/
structure IndexItem where
  name : String
  size : Nat
deriving DecidableEq

/-- `str.lower()` (ASCII). -/
def lowerStr (s : String) : String := ⟨s.data.map Char.toLower⟩

/-- `name.lower().endswith((".htm", ".html"))`. -/
def isHtmlName (n : String) : Bool :=
  ".htm".data.isSuffixOf (lowerStr n).data || ".html".data.isSuffixOf (lowerStr n).data

/-- `name.lower().endswith(".txt")`. -/
def isTxtName (n : String) : Bool := ".txt".data.isSuffixOf (lowerStr n).data

/-- `"index" in name.lower()`. -/
def nameHasIndex (n : String) : Bool := hasInfix (lowerStr n).data "index".data

/-- `sorted(items, key=lambda i: i.get("size", 0), reverse=True)`:
Python's stable descending sort by size. -/
def sortedBySize (items : List IndexItem) : List IndexItem :=
  items.mergeSort (fun a b => decide (b.size ≤ a.size))

/-- The ranked candidate list of `download_primary_filing_html`: non-index
HTML by descending size, then plain-text files, then all HTML files, with
empty names dropped. -/
def candidateNames (items : List IndexItem) : List String :=
  (((sortedBySize ((items.filter (fun i => isHtmlName i.name)).filter
        (fun i => !nameHasIndex i.name))).map (fun i => i.name))
    ++ ((sortedBySize (items.filter (fun i => isTxtName i.name))).map (fun i => i.name))
    ++ ((sortedBySize (items.filter (fun i => isHtmlName i.name))).map
        (fun i => i.name))).filter (fun n => !n.isEmpty)

/-- Outcome of one `_get_text` fetch of a candidate document. -/
inductive FetchResult where
  | ok (body : String)
  | notFound
  | otherError (code : Nat)
deriving DecidableEq

/-- The remote archive: the body or HTTP failure served for each candidate
file name of the filing being downloaded. -/
structure EdgarWorld where
  fetch : String → FetchResult

/-- The on-disk cache directory, keyed by accession number
(`{accession}.html`). -/
def DiskCache := List (String × String)

/-- The candidate loop of `download_primary_filing_html`: try each name in
order; a 404 moves on to the next candidate, any other HTTP error
propagates (`Except.error` with the status code), success stops the loop.
Also returns the trace of candidate names actually fetched. -/
def tryCandidates (w : EdgarWorld) : List String → Except Nat (Option String) × List String
  | [] => (.ok none, [])
  | n :: rest =>
    match w.fetch n with
    | .ok body => (.ok (some body), [n])
    | .notFound =>
      ((tryCandidates w rest).1, n :: (tryCandidates w rest).2)
    | .otherError code => (.error code, [n])

/-- `download_primary_filing_html`: sanitize the accession number, serve
from the on-disk cache without any fetch when present, otherwise rank the
filing-index entries (the index fetch itself is the oracle argument
`items`), try candidates in order and cache the first successful body.
Returns the result, the cache afterwards, and the trace of fetched
candidate names. -/
def downloadPrimary (w : EdgarWorld) (cache : DiskCache) (accession : String)
    (items : List IndexItem) : Except String String × DiskCache × List String :=
  match sanitizeAccession accession.data with
  | .error e => (.error e, cache, [])
  | .ok _ =>
    match cache.lookup accession with
    | some body => (.ok body, cache, [])
    | none =>
      if (candidateNames items).isEmpty then
        (.error "No primary document found in filing index", cache, [])
      else
        match tryCandidates w (candidateNames items) with
        | (.error code, tr) => (.error ("HTTP error " ++ toString code), cache, tr)
        | (.ok none, tr) =>
          (.error "No downloadable primary document found in filing index", cache, tr)
        | (.ok (some body), tr) => (.ok body, (accession, body) :: cache, tr)

/-- The candidate loop on a list whose every fetch is a 404: all
candidates are attempted and none succeeds. -/
theorem tryCandidates_all404 (w : EdgarWorld) :
    ∀ cs, (∀ c ∈ cs, w.fetch c = .notFound) → tryCandidates w cs = (.ok none, cs) := by
  intro cs
  induction cs with
  | nil => intro _; rfl
  | cons n rest ih =>
    intro h
    unfold tryCandidates
    rw [h n (List.mem_cons_self _ _)]
    rw [ih (fun c hc => h c (List.mem_cons_of_mem _ hc))]

/-- The candidate loop stops at the first candidate that is not a 404:
earlier candidates are all attempted in order, later ones are not
touched. -/
theorem tryCandidates_first_hit (w : EdgarWorld) :
    ∀ pre c post, (∀ x ∈ pre, w.fetch x = .notFound) →
      (∀ body, w.fetch c = .ok body →
        tryCandidates w (pre ++ c :: post) = (.ok (some body), pre ++ [c]))
      ∧ (∀ code, w.fetch c = .otherError code →
        tryCandidates w (pre ++ c :: post) = (.error code, pre ++ [c])) := by
  intro pre
  induction pre with
  | nil =>
    intro c post _
    constructor
    · intro body hb
      rw [List.nil_append]
      unfold tryCandidates
      rw [hb]
      rfl
    · intro code hc
      rw [List.nil_append]
      unfold tryCandidates
      rw [hc]
      rfl
  | cons n rest ih =>
    intro c post h
    have hn : w.fetch n = .notFound := h n (List.mem_cons_self _ _)
    have ihc := ih c post (fun x hx => h x (List.mem_cons_of_mem _ hx))
    constructor
    · intro body hb
      have hrec := ihc.1 body hb
      rw [List.cons_append]
      unfold tryCandidates
      rw [hn, hrec]
      rfl
    · intro code hc
      have hrec := ihc.2 code hc
      rw [List.cons_append]
      unfold tryCandidates
      rw [hn, hrec]
      rfl

/-- An accession value that sanitizes successfully is returned unchanged. -/
theorem sanitizeAccession_eq_ok (s : List Char)
    (h : (sanitizeAccession s).isOk = true) : sanitizeAccession s = .ok s := by
  unfold sanitizeAccession at *
  split_ifs at * <;> simp_all

/- ===== Claim C9 ===== -/

/-- C9: `download_primary_filing_html` serves a cached body with no fetch;
on a cache miss it attempts the ranked candidates in order, skipping to
the next candidate exactly on a 404 — returning the first success and
caching it on disk so that a subsequent call fetches nothing — propagating
any other HTTP error immediately with no cache write, and failing after
attempting every candidate when all are 404s. -/
theorem download_primary_selection (w : EdgarWorld) (cache : DiskCache)
    (accession : String) (items : List IndexItem)
    (hsan : (sanitizeAccession accession.data).isOk = true) :
    (∀ body, cache.lookup accession = some body →
      downloadPrimary w cache accession items = (.ok body, cache, []))
    ∧ (cache.lookup accession = none →
        ∀ pre c post, candidateNames items = pre ++ c :: post →
          (∀ x ∈ pre, w.fetch x = .notFound) →
          (∀ body, w.fetch c = .ok body →
            downloadPrimary w cache accession items =
              (.ok body, (accession, body) :: cache, pre ++ [c])
            ∧ downloadPrimary w ((accession, body) :: cache) accession items =
              (.ok body, (accession, body) :: cache, []))
          ∧ (∀ code, w.fetch c = .otherError code →
            downloadPrimary w cache accession items =
              (.error ("HTTP error " ++ toString code), cache, pre ++ [c])))
    ∧ (cache.lookup accession = none →
        (∀ x ∈ candidateNames items, w.fetch x = .notFound) →
        (candidateNames items).isEmpty = false →
        downloadPrimary w cache accession items =
          (.error "No downloadable primary document found in filing index", cache,
            candidateNames items)) := by
  have hok := sanitizeAccession_eq_ok accession.data hsan
  refine ⟨?_, ?_, ?_⟩
  · intro body hb
    unfold downloadPrimary
    rw [hok]
    dsimp only
    rw [hb]
  · intro hmiss pre c post hcands hpre
    have hne : (candidateNames items).isEmpty = false := by
      rw [hcands]
      cases pre <;> simp
    constructor
    · intro body hb
      have htry := (tryCandidates_first_hit w pre c post hpre).1 body hb
      rw [← hcands] at htry
      constructor
      · unfold downloadPrimary
        rw [hok]
        dsimp only
        rw [hmiss]
        dsimp only
        rw [if_neg (by rw [hne]; simp), htry]
      · unfold downloadPrimary
        rw [hok]
        dsimp only
        have : (((accession, body) :: cache : DiskCache).lookup accession) = some body := by
          simp [List.lookup]
        rw [this]
    · intro code hc
      have htry := (tryCandidates_first_hit w pre c post hpre).2 code hc
      rw [← hcands] at htry
      unfold downloadPrimary
      rw [hok]
      dsimp only
      rw [hmiss]
      dsimp only
      rw [if_neg (by rw [hne]; simp), htry]
  · intro hmiss hall hne
    have htry := tryCandidates_all404 w (candidateNames items) hall
    unfold downloadPrimary
    rw [hok]
    dsimp only
    rw [hmiss]
    dsimp only
    rw [if_neg (by rw [hne]; simp), htry]

unseal List.merge List.mergeSort in
/-- Witness for C9: one HTML candidate that downloads successfully, then a
second call served from the cache. -/
theorem download_primary_selection_witness :
    downloadPrimary ⟨fun _ => .ok "BODY"⟩ [] "0001193125-24-012345" [⟨"a.htm", 5⟩] =
      (.ok "BODY", [("0001193125-24-012345", "BODY")], ["a.htm"])
    ∧ downloadPrimary ⟨fun _ => .ok "BODY"⟩ [("0001193125-24-012345", "BODY")]
        "0001193125-24-012345" [⟨"a.htm", 5⟩] =
      (.ok "BODY", [("0001193125-24-012345", "BODY")], []) :=
  ((((download_primary_selection ⟨fun _ => .ok "BODY"⟩ [] "0001193125-24-012345"
      [⟨"a.htm", 5⟩] (by decide)).2.1 (by rfl) [] "a.htm" ["a.htm"]
      (by decide) (by intro x hx; simp at hx)).1 "BODY" rfl))
